import Mathlib

/-!
Shallow embedding of the `texpr` typed-expression engine (`texpr.go`).

Go's pointer graph of `Type` values is modelled as an arena: a `System`
holds a list of `Ty` records and "type pointers" are indices (`Nat`) into
that list, so Go pointer equality becomes index equality.  Go's `any`
results of literal-parse functions are modelled by `GoVal`.  The derived
lookup maps that `NewSystem` caches (`values`, `as`, `enums`, `typeMap`)
are modelled by on-demand lookups with Go map semantics (later inserts
overwrite earlier ones with the same key).  Behaviour is translated from
the source; where Go would dereference a nil pointer or index a string
out of range, the embedding returns an explicit crash outcome.
-/

/-- Result value of a Go literal-parse function (`any` in the source). -/
inductive GoVal where
  | str (s : String)
  | int (i : Int)
  | bool (b : Bool)
deriving DecidableEq, Repr

/-- `Parameter` from texpr.go: a parameter to a parameterized value. -/
structure Parameter where
  type : String
  generic : Bool := false
  name : String := ""
  description : String := ""
  default : Option String := none
deriving DecidableEq, Repr

/-- `Value` from texpr.go: a value (possibly with parameters) on a type. -/
structure Value where
  path : String
  aliases : List String := []
  description : String := ""
  type : String := ""
  generic : Bool := false
  parameters : List Parameter := []
  variadic : Bool := false
deriving DecidableEq, Repr

/-- `Type` from texpr.go (named `Ty` because `Type` is a Lean keyword).
`as` models the `map[TypeName]string` literal as an association list and
`parse` is the optional literal-parse function returning `(any, error)`. -/
structure Ty where
  name : String
  description : String := ""
  values : List Value := []
  as : List (String × String) := []
  enums : List String := []
  parse : Option (String → Except String GoVal) := none
  parseOrder : Int := 0

/-- `strings.ToLower`, mapped over the characters (kept kernel-reducible
by avoiding the iterator-based core implementation). -/
def toLowerGo (s : String) : String := String.mk (s.data.map Char.toLower)

/-- The Go `math.MaxInt` constant used by `Value.MaxParameters`. -/
def goMaxInt : Nat := 9223372036854775807

/-- `Value.MaxParameters` from texpr.go. -/
def Value.maxParameters (v : Value) : Nat :=
  if v.variadic && v.parameters.length > 0 then goMaxInt else v.parameters.length

/-- `Value.MinParameters` from texpr.go: `min` is set to `i+1` at every
index `i` whose parameter carries a default value. -/
def Value.minParameters (v : Value) : Nat :=
  v.parameters.enum.foldl (fun m p => if p.2.default.isSome then p.1 + 1 else m) 0

/-- `Value.Parameter(i)` from texpr.go. -/
def Value.parameter (v : Value) (i : Nat) : Option Parameter :=
  if i ≥ v.maxParameters then none
  else if i ≥ v.parameters.length then v.parameters.getLast?
  else v.parameters.get? i

/-- The lowercase path→value insertion sequence built by `NewSystem`
(`t.values[strings.ToLower(v.Path)] = v` then the aliases, per value). -/
def Ty.valueEntries (t : Ty) : List (String × Value) :=
  (t.values.map (fun v =>
    (toLowerGo v.path, v) :: v.aliases.map (fun a => (toLowerGo a, v)))).flatten

/-- `Type.Value(path)` from texpr.go: lowercase lookup in the cached map.
Go map semantics: the last inserted binding for a key wins. -/
def Ty.value (t : Ty) (path : String) : Option Value :=
  ((t.valueEntries.filter (fun p => p.1 = toLowerGo path)).getLast?).map Prod.snd

/-- `Type.EnumFor(input)` from texpr.go: lowercase enum lookup, returning
the originally declared enum string. -/
def Ty.enumFor (t : Ty) (input : String) : Option String :=
  (((t.enums.map (fun e => (toLowerGo e, e))).filter
      (fun p => p.1 = toLowerGo input)).getLast?).map Prod.snd

/-- `Type.AsValue(other)` from texpr.go: the cached `as` map binds a type
name to `t.Value(valuePath)`; a broken path would have failed `NewSystem`,
so it is modelled as an absent entry. -/
def Ty.asValue (t : Ty) (other : String) : Option Value :=
  (((t.as.filter (fun p => p.1 = other)).getLast?).map Prod.snd).bind t.value

/-- `Type.ParseInput(input)` from texpr.go. -/
def Ty.parseInput (t : Ty) (input : String) : Except String GoVal :=
  match t.parse with
  | none =>
      match t.enumFor input with
      | some v => .ok (.str v)
      | none => .error ("parsing is not supported for " ++ t.name)
  | some f => f input

/-- Whether `NewSystem` adds the type to the literal-parser list
(`t.Parse != nil || len(t.Enums) > 0`). -/
def Ty.hasConstantParsing (t : Ty) : Bool :=
  t.parse.isSome || !t.enums.isEmpty

/-- The comparator of the `sort.Slice` call in `NewSystem`. -/
def parseLess (a b : Ty) : Bool :=
  if a.parseOrder ≠ b.parseOrder then decide (a.parseOrder > b.parseOrder)
  else if a.parse.isSome ≠ b.parse.isSome then a.parse.isSome
  else decide (a.name.length > b.name.length)

/-- `System` from texpr.go: the registry of types.  Type pointers are
modelled as indices into `types`. -/
structure System where
  types : List Ty

/-- A placeholder `Ty` for out-of-range indices (never reached for
indices produced by the lookups below). -/
def dummyTy : Ty := { name := "" }

/-- The type stored at a type-pointer index. -/
def System.tyAt (sys : System) (i : Nat) : Ty :=
  sys.types.getD i dummyTy

/-- Name of the type at an index. -/
def System.nameAt (sys : System) (i : Nat) : String :=
  (sys.tyAt i).name

/-- `System.Type(name)` from texpr.go: the `typeMap` lookup.  `NewSystem`
stores `sys.typeMap[t.Name] = t` without case normalisation, so lookup is
by the exact declared name; the last type with that name wins. -/
def System.findType (sys : System) (name : String) : Option Nat :=
  ((sys.types.enum.filter (fun p => p.2.name = name)).getLast?).map Prod.fst

/-- The indices retained for the literal-parser priority list, in
declaration order (the pre-sort `sys.parseOrder` contents). -/
def System.parseCandidates (sys : System) : List Nat :=
  (List.range sys.types.length).filter (fun i => (sys.tyAt i).hasConstantParsing)

/-- `sys.parseOrder` after the `sort.Slice` call.  Go's `sort.Slice` is an
unstable sort that only guarantees sortedness w.r.t. the comparator; the
embedding determinizes it with an insertion sort over the same comparator. -/
def System.parseOrderIdx (sys : System) : List Nat :=
  List.insertionSort (fun i j => parseLess (sys.tyAt j) (sys.tyAt i) = false)
    sys.parseCandidates

/-- `getTypeNames` from texpr.go. -/
def getTypeNames (sys : System) (types : List Nat) : String :=
  String.intercalate ", " (types.map sys.nameAt)

/-- The first type in `tryTypes` whose `ParseInput` succeeds on the token,
with its parsed value (the successful iteration of `System.setConstant`'s
loop). -/
def System.firstParse (sys : System) (tryTypes : List Nat) (token : String) :
    Option (Nat × GoVal) :=
  tryTypes.findSome? (fun t =>
    match (sys.tyAt t).parseInput token with
    | .ok v => some (t, v)
    | .error _ => none)

/-- `System.setConstant` from texpr.go, with the node mutation factored
out: `.ok (some (t, v))` means the node becomes a constant of type `t`
with parsed value `v`; `.ok none` is the `required = false` fall-through;
`.error` is the `required = true` failure. -/
def System.setConstant (sys : System) (tryTypes : List Nat) (token : String)
    (required : Bool) : Except String (Option (Nat × GoVal)) :=
  match sys.firstParse tryTypes token with
  | some r => .ok (some r)
  | none =>
      if required then
        .error ("constant " ++ token ++ " did not match expected type(s) " ++
          getTypeNames sys tryTypes)
      else .ok none

/-- `getBaseType` from texpr.go over type-pointer indices; the Go pointer
equality `types[i] == types[0]` becomes index equality. -/
def getBaseType (sys : System) (types : List Nat) : Option Nat :=
  match types with
  | [] => none
  | t0 :: rest =>
      if rest.isEmpty then some t0
      else if rest.all (fun t => t == t0) then some t0
      else
        types.find? (fun a => types.all (fun b =>
          sys.nameAt a == sys.nameAt b ||
            ((sys.tyAt b).asValue (sys.nameAt a)).isSome))

/-!
## Expression nodes and the linker

A parsed chain is a list of nodes (`Expr.Next` becomes list order); each
node carries its argument chains.  `PNode` is the parser's output (token,
constant flag, arguments); `LNode` is a node after linking, carrying the
fields the linker fills in (`Parsed`, `Value`, `Parameter`, `ParentType`,
`Type`).  `Prev == nil` in the source corresponds to being the first node
of a chain, which the walk tracks with an explicit flag.
-/

/-- A parsed expression node (`Expr` as produced by the parser). -/
inductive PNode where
  | mk (token : String) (constant : Bool) (args : List (List PNode))

def PNode.token : PNode → String
  | .mk t _ _ => t

def PNode.constant : PNode → Bool
  | .mk _ c _ => c

def PNode.args : PNode → List (List PNode)
  | .mk _ _ a => a

/-- A linked expression node (`Expr` after `System.link` ran over it). -/
inductive LNode where
  | mk (token : String) (constant : Bool) (parsed : Option GoVal)
      (value : Option Value) (parameter : Option Parameter)
      (parentType : Option Nat) (ty : Option Nat) (args : List (List LNode))

def LNode.token : LNode → String
  | .mk t _ _ _ _ _ _ _ => t

def LNode.constant : LNode → Bool
  | .mk _ c _ _ _ _ _ _ => c

def LNode.parsed : LNode → Option GoVal
  | .mk _ _ p _ _ _ _ _ => p

def LNode.value : LNode → Option Value
  | .mk _ _ _ v _ _ _ _ => v

def LNode.parameter : LNode → Option Parameter
  | .mk _ _ _ _ p _ _ _ => p

def LNode.parentType : LNode → Option Nat
  | .mk _ _ _ _ _ pt _ _ => pt

def LNode.ty : LNode → Option Nat
  | .mk _ _ _ _ _ _ t _ => t

def LNode.args : LNode → List (List LNode)
  | .mk _ _ _ _ _ _ _ a => a

/-- A failed link: `.perr` is a returned `ParseError` message, `.crash`
is a Go runtime panic (nil dereference / exhausted fuel). -/
inductive LinkFailure where
  | perr (msg : String)
  | crash (msg : String)
deriving DecidableEq, Repr

/-- `Expr.TypeOneOf` from texpr.go (comparison is by type name). -/
def typeOneOf (sys : System) (e : LNode) (types : List Nat) : Bool :=
  match e.ty with
  | none => types.isEmpty
  | some t => types.any (fun x => sys.nameAt x == sys.nameAt t)

/-- The first expected type for which the given type's `as` map has an
entry, together with the conversion value (the successful iteration of
`System.convertToExpected`'s loop). -/
def System.findConversion (sys : System) (fromTy : Nat) (expectedTypes : List Nat) :
    Option (Nat × Value) :=
  expectedTypes.findSome? (fun et =>
    ((sys.tyAt fromTy).asValue (sys.nameAt et)).map (fun cv => (et, cv)))

/-- `System.convertToExpected` from texpr.go, acting on the chain that
ends in `last`.  A nil `last.Type` with a non-empty expected list makes
the Go code call `AsValue` on a nil pointer, modelled as `.crash`. -/
def System.convertToExpected (sys : System) (chain : List LNode)
    (expectedTypes : List Nat) : Except LinkFailure (List LNode) :=
  match chain.getLast? with
  | none => .ok chain
  | some last =>
      if expectedTypes.isEmpty || typeOneOf sys last expectedTypes then .ok chain
      else
        match last.ty with
        | none => .error (.crash "nil Type dereference in convertToExpected")
        | some lt =>
            match sys.findConversion lt expectedTypes with
            | some (et, convert) =>
                .ok (chain ++ [LNode.mk convert.path false none (some convert)
                  none (some lt) (some et) []])
            | none => .ok chain

/-- The head types collected by `Value.GetType`: the `Type` field of each
argument whose parameter is generic (`arg.Type != nil && arg.Parameter.Generic`).
Go reads `arg.Parameter.Generic` without a nil check; after
`linkArguments` every argument head carries its parameter, so a missing
parameter is treated as non-generic here. -/
def genericArgTypes (args : List (List LNode)) : List Nat :=
  args.filterMap (fun c =>
    match c.head? with
    | some h =>
        if h.ty.isSome && ((h.parameter.map Parameter.generic).getD false) then h.ty
        else none
    | none => none)

/-- `Value.GetType` from texpr.go. -/
def Value.getType (v : Value) (sys : System) (args : List (List LNode)) : Option Nat :=
  if !v.generic then sys.findType v.type
  else getBaseType sys (genericArgTypes args)

/-- Whether the head of an argument chain is on a generic parameter. -/
def headParamGeneric (c : List LNode) : Bool :=
  match c.head? with
  | some h => (h.parameter.map Parameter.generic).getD false
  | none => false

/-- The generic-type resolution step of `System.link` (the body of the
`if currentValue.Generic` block): determine the common type via
`Value.GetType`/`getBaseType`, then run `convertToExpected` on the last
node of every generic argument chain. -/
def System.resolveGeneric (sys : System) (v : Value) (token : String)
    (args : List (List LNode)) : Except LinkFailure (Nat × List (List LNode)) :=
  match v.getType sys args with
  | none => .error (.perr ("generic type could not be determined for " ++ token))
  | some t => do
      let args2 ← args.mapM (fun c =>
        if headParamGeneric c then sys.convertToExpected c [t] else pure c)
      .ok (t, args2)

/-- The post-walk phase of `System.link`: auto-cast the last expression to
an expected type, then error if it still does not match. -/
def System.linkFinish (sys : System) (expectedTypes : List Nat)
    (walked : List LNode) : Except LinkFailure (List LNode) :=
  match sys.convertToExpected walked expectedTypes with
  | .error e => .error e
  | .ok walked2 =>
  match walked2.getLast? with
  | none => .ok walked2
  | some last =>
      if !expectedTypes.isEmpty && !(typeOneOf sys last expectedTypes) then
        match last.ty with
        | none => .error (.crash "nil Type dereference in link error message")
        | some t =>
            .error (.perr ("expected type(s) " ++ getTypeNames sys expectedTypes ++
              " but was given " ++ sys.nameAt t ++ " instead"))
      else .ok walked2

/-- Set the `Parameter` field on the head of an argument chain
(`current.Arguments[i].Parameter = param`). -/
def setHeadParameter (c : List LNode) (p : Parameter) : List LNode :=
  match c with
  | [] => []
  | (.mk tok k pv v _ pt ty args) :: rest => .mk tok k pv v (some p) pt ty args :: rest

/-- Conversion of a chain the linker never visits (arguments hanging off
a constant node) into unlinked `LNode`s. -/
def rawToLF : Nat → List PNode → List LNode
  | 0, _ => []
  | _ + 1, [] => []
  | f + 1, node :: rest =>
      LNode.mk node.token node.constant none none none none none
        (node.args.map (rawToLF f)) :: rawToLF f rest

/-- The five mutually recursive pieces of `System.link` from texpr.go,
packed as one structural recursion over the fuel so that applications
reduce definitionally: in order, `link` itself, its node-walking loop
(`isFirst` models `current.Prev == nil`, then the running context type),
`linkArguments`, the supplied-argument loop of `linkArguments`, and its
default-filling loop. -/
def linkPack (sys : System) : Nat →
    (List PNode → List Nat → Nat → Except LinkFailure (List LNode)) ×
    (List Nat → Nat → Bool → Nat → List PNode → Except LinkFailure (List LNode)) ×
    (Nat → String → String → Value → List (List PNode) →
      Except LinkFailure (List (List LNode))) ×
    (Nat → Value → Nat → List (List PNode) → Except LinkFailure (List (List LNode))) ×
    (Value → Nat → Except LinkFailure (List (List LNode)))
  | 0 =>
      (fun _ _ _ => .error (.crash "link fuel exhausted"),
       fun _ _ _ _ _ => .error (.crash "link fuel exhausted"),
       fun _ _ _ _ _ => .error (.crash "link fuel exhausted"),
       fun _ _ _ _ => .error (.crash "link fuel exhausted"),
       fun _ _ => .error (.crash "link fuel exhausted"))
  | f + 1 =>
      let prev := linkPack sys f
      let linkP := prev.1
      let walkP := prev.2.1
      let linkArgsP := prev.2.2.1
      let argsLoopP := prev.2.2.2.1
      let defaultsP := prev.2.2.2.2
      ( -- `System.link`: walk the chain, then the post-walk conversion/check.
       fun chain expectedTypes root => do
         let walked ← walkP expectedTypes root true root chain
         sys.linkFinish expectedTypes walked,
       -- the node loop of `System.link`
       fun expectedTypes root isFirst parentTy chain =>
         match chain with
         | [] => .ok []
         | node :: rest =>
             match (sys.tyAt parentTy).value node.token, node.constant with
             | some v, false => do
                 -- it matches a value on the parent type and is not a constant
                 let args1 ← linkArgsP root node.token (sys.nameAt parentTy) v node.args
                 if v.generic then
                   match sys.resolveGeneric v node.token args1 with
                   | .error e => .error e
                   | .ok (t, args2) => do
                       let rest2 ← walkP expectedTypes root false t rest
                       .ok (LNode.mk node.token false none (some v) none (some parentTy)
                         (some t) args2 :: rest2)
                 else
                   match sys.findType v.type with
                   | some t => do
                       let rest2 ← walkP expectedTypes root false t rest
                       .ok (LNode.mk node.token false none (some v) none (some parentTy)
                         (some t) args1 :: rest2)
                   | none =>
                       -- a non-generic value with unresolved type (rejected by
                       -- NewSystem): the next iteration would dereference a nil
                       -- parent type
                       if rest.isEmpty then
                         .ok [LNode.mk node.token false none (some v) none
                           (some parentTy) none args1]
                       else .error (.crash "nil parent Type dereference")
             | _, _ =>
                 -- it is a constant or does not match a value on the parent type
                 if rest.isEmpty && !expectedTypes.isEmpty then
                   -- a chain-final constant with expected types: parse using only those
                   match sys.setConstant expectedTypes node.token true with
                   | .error m => .error (.perr m)
                   | .ok (some (t, pv)) =>
                       .ok [LNode.mk node.token true (some pv) none none (some parentTy)
                         (some t) (node.args.map (rawToLF f))]
                   | .ok none =>
                       -- required = true never falls through without an error
                       .ok [LNode.mk node.token node.constant none none none
                         (some parentTy) none (node.args.map (rawToLF f))]
                 else if isFirst then
                   match sys.setConstant sys.parseOrderIdx node.token false with
                   | .error m => .error (.perr m)
                   | .ok none => .error (.perr ("type could not be determined for " ++
                       node.token))
                   | .ok (some (t, pv)) => do
                       let rest2 ← walkP expectedTypes root false t rest
                       .ok (LNode.mk node.token true (some pv) none none (some parentTy)
                         (some t) (node.args.map (rawToLF f)) :: rest2)
                 else .error (.perr ("invalid value " ++ node.token)),
       -- `System.linkArguments`: arity checks, link supplied args, fill defaults
       fun root token parentName v argsRaw =>
         let argCount := argsRaw.length
         let argMin := v.minParameters
         let argMax := v.maxParameters
         if argCount < argMin then
           .error (.perr (token ++ "." ++ parentName ++ " expects at least " ++
             toString argMin ++ " parameters"))
         else if argCount > argMax then
           .error (.perr (token ++ "." ++ parentName ++ " expects no more than " ++
             toString argMax ++ " parameters"))
         else do
           let supplied ← argsLoopP root v 0 argsRaw
           let defaulted ← defaultsP v argCount
           .ok (supplied ++ defaulted),
       -- the supplied-argument loop: Go builds the expected-type list from
       -- `param.parameterType`, but `NewSystem` only ever assigns that cache
       -- into a `for`-range loop copy (the `Parameters` slice holds values,
       -- not pointers), so the field is always nil and every argument chain
       -- is linked with an EMPTY expected-type list; the argument head still
       -- receives the parameter
       fun root v i argsRaw =>
         match argsRaw with
         | [] => .ok []
         | c :: cs => do
             match v.parameter i with
             | none => .error (.crash "nil Parameter dereference")
             | some param => do
                 let lc ← linkP c [] root
                 let rest ← argsLoopP root v (i + 1) cs
                 .ok (setHeadParameter lc param :: rest),
       -- the default-filling loop (`i` from the supplied count to the declared
       -- count): a visited parameter without a default is a returned error; one
       -- WITH a default reaches `param.parameterType.ParseInput(*param.Default)`,
       -- and because the `parameterType` cache is never persisted that call
       -- dereferences a nil `*Type` (in practice unreachable: `MinParameters`
       -- makes every defaulted parameter required, see claim C1)
       fun v i =>
         if i < v.parameters.length then
           match v.parameter i with
           | none => .error (.crash "nil Parameter dereference")
           | some param =>
               match param.default with
               | none =>
                   .error (.perr ("parameter " ++ param.name ++ " at " ++ toString i ++
                     " was not given a value or a default value"))
               | some _ =>
                   .error (.crash "nil parameterType dereference in ParseInput")
         else .ok [])

/-- `System.link` (see `linkPack`). -/
def linkF (fuel : Nat) (sys : System) (chain : List PNode)
    (expectedTypes : List Nat) (root : Nat) : Except LinkFailure (List LNode) :=
  (linkPack sys fuel).1 chain expectedTypes root

/-- The node loop of `System.link` (see `linkPack`). -/
def walkF (fuel : Nat) (sys : System) (expectedTypes : List Nat) (root : Nat)
    (isFirst : Bool) (parentTy : Nat) (chain : List PNode) :
    Except LinkFailure (List LNode) :=
  (linkPack sys fuel).2.1 expectedTypes root isFirst parentTy chain

/-- `System.linkArguments` (see `linkPack`). -/
def linkArgsF (fuel : Nat) (sys : System) (root : Nat) (token parentName : String)
    (v : Value) (argsRaw : List (List PNode)) :
    Except LinkFailure (List (List LNode)) :=
  (linkPack sys fuel).2.2.1 root token parentName v argsRaw

/-- The supplied-argument loop of `System.linkArguments` (see `linkPack`). -/
def argsLoopF (fuel : Nat) (sys : System) (root : Nat) (v : Value) (i : Nat)
    (argsRaw : List (List PNode)) : Except LinkFailure (List (List LNode)) :=
  (linkPack sys fuel).2.2.2.1 root v i argsRaw

/-- The default-filling loop of `System.linkArguments` (see `linkPack`). -/
def defaultsF (fuel : Nat) (sys : System) (v : Value) (i : Nat) :
    Except LinkFailure (List (List LNode)) :=
  (linkPack sys fuel).2.2.2.2 v i

/-- `System.link` entry point (fuel-bounded). -/
def System.link (sys : System) (fuel : Nat) (chain : List PNode)
    (expectedTypes : List Nat) (root : Nat) : Except LinkFailure (List LNode) :=
  linkF fuel sys chain expectedTypes root

/-!
## The parser

The Go parser mutates a pointer graph of `Expr` nodes; the embedding uses
an arena (`Array RawNode`) with node ids and keeps the immutable input as
an explicit `List Char` parameter (the source caches it in the struct).
`PState.emptyAdded` is bookkeeping only: it records that the
missing-value placeholder branch of `parseExpr` ran, and influences no
behaviour.  Loops are fuel-bounded; exhaustion is an explicit failure
(never reached for the fuel amounts used by `System.parse`).
-/

/-- `Position` from texpr.go. -/
structure Pos where
  index : Nat
  line : Nat
  column : Nat
deriving DecidableEq, Repr

/-- `Position.String` from texpr.go. -/
def posString (p : Pos) : String :=
  "(index: " ++ toString p.index ++ ", line: " ++ toString p.line ++
    ", column: " ++ toString p.column ++ ")"

/-- `charsToMap` from texpr.go, as a characteristic function. -/
def charsToMap (x : String) (c : Char) : Bool := x.toList.contains c

/-- Any chars that end a token. -/
def stopChars : Char → Bool := charsToMap ".,()"

/-- Any chars that are valid ".name" values. -/
def wordChars : Char → Bool :=
  charsToMap "abcdefghijklmnopqrstuvwxyzABCDEFGHIJKLMNOPQRSTUVWXYZ0123456789_"

/-- Any chars where you would expect another expression to follow. -/
def nextChars : Char → Bool := charsToMap "(,."

/-- A parsed node in the parser arena (`Expr` fields filled by the parser). -/
structure RawNode where
  token : String
  constant : Bool
  startP : Pos
  endP : Pos
  prev : Option Nat := none
  next : Option Nat := none
  parent : Option Nat := none
  args : List Nat := []
deriving DecidableEq, Repr

/-- The `parser` struct from texpr.go (minus the cached input). -/
structure PState where
  i : Nat
  lineReset : Nat
  line : Nat
  parents : List (Option Nat)
  prev : Option Nat
  first : Option Nat
  nodes : Array RawNode
  emptyAdded : Bool
deriving DecidableEq, Repr

def initPState : PState :=
  { i := 0, lineReset := 0, line := 0, parents := [], prev := none,
    first := none, nodes := #[], emptyAdded := false }

/-- `parser.position` from texpr.go. -/
def PState.pos (st : PState) : Pos :=
  { index := st.i, line := st.line, column := st.i - st.lineReset }

/-- `parser.newExpr` from texpr.go: register the node, link `Prev`/`Next`,
record the first node, and attach argument heads to the enclosing parent.
A `nil` parent on the stack makes Go append to a nil pointer's field,
modelled as the `.error` case. -/
def newExpr (st : PState) (nd : RawNode) : Except String (PState × Nat) :=
  let id := st.nodes.size
  let nd := { nd with prev := st.prev }
  let first := match st.first with
    | none => some id
    | some x => some x
  match st.prev with
  | some p =>
      let nodes := (st.nodes.push nd).modify p (fun x => { x with next := some id })
      .ok ({ st with nodes := nodes, prev := some id, first := first }, id)
  | none =>
      match st.parents with
      | [] => .ok ({ st with nodes := st.nodes.push nd, prev := some id, first := first }, id)
      | none :: _ => .error "nil pointer dereference in newExpr"
      | some pid :: _ =>
          let nodes := (st.nodes.push { nd with parent := some pid }).modify pid
            (fun x => { x with args := x.args ++ [id] })
          .ok ({ st with nodes := nodes, prev := some id, first := first }, id)

/-- The scan loop of `parser.parseToken`: consume characters until a stop
char, or until a non-word char ends a word token.  Returns the new index
and the token text. -/
def tokLoop (e : List Char) (word : Bool) : Nat → Nat → String → Nat × String
  | 0, i, out => (i, out)
  | f + 1, i, out =>
      if i < e.length then
        match e.get? i with
        | none => (i, out)
        | some b =>
            if stopChars b || (word && !wordChars b) then (i, out)
            else tokLoop e word f (i + 1) (out.push b)
      else (i, out)

/-- `parser.parseToken` from texpr.go. -/
def parseTokenGo (e : List Char) (st : PState) : Except String (PState × Nat) :=
  match e.get? st.i with
  | none => .error "index out of range"
  | some b0 =>
      let word := wordChars b0
      let start := st.pos
      let r := tokLoop e word (e.length + 1) st.i ""
      let st2 := { st with i := r.1 }
      newExpr st2 { token := r.2, constant := false, startP := start, endP := st2.pos }

/-- Outcome of the `parser.parseConstant` loop. -/
inductive ConstOut where
  | done (i : Nat) (tok : String)
  | unterminated (msg : String) (i : Nat)
deriving DecidableEq, Repr

/-- The loop of `parser.parseConstant`: Go increments `p.i` and only then
reads `p.e[p.i]`, so reaching the end of the input indexes out of range
(the `.error` case); the fall-through unterminated-quote return is only
reachable when the loop condition fails. -/
def constLoop (e : List Char) (endq : Char) (start : Pos) :
    Nat → Nat → Bool → String → Except String ConstOut
  | 0, _, _, _ => .error "constant fuel exhausted"
  | f + 1, i, escaped, out =>
      if i < e.length then
        let i2 := i + 1
        match e.get? i2 with
        | none => .error "index out of range"
        | some b =>
            if b == '\\' && !escaped then constLoop e endq start f i2 true out
            else
              let b2 := if escaped then
                  (if b == 'n' then '\n'
                   else if b == 'r' then '\r'
                   else if b == 't' then '\t'
                   else b)
                else b
              if b == endq && !escaped then .ok (.done (i2 + 1) out)
              else constLoop e endq start f i2 false (out.push b2)
      else
        .ok (.unterminated ("quoted constant starting at " ++ posString start ++
          " did not have a terminating " ++ endq.toString) i)

/-- `parser.parseConstant` from texpr.go. -/
def parseConstantGo (e : List Char) (st : PState) :
    Except String (PState × Option Nat × Option String) :=
  match e.get? st.i with
  | none => .error "index out of range"
  | some endq =>
      let start := st.pos
      match constLoop e endq start (e.length + 1) st.i false "" with
      | .error m => .error m
      | .ok (.done i2 tok) =>
          let st2 := { st with i := i2 }
          let nd2 : RawNode := { token := tok, constant := true, startP := start, endP := st2.pos }
          match newExpr st2 nd2 with
          | .error m => .error m
          | .ok (st3, id) => .ok (st3, some id, none)
      | .ok (.unterminated msg i2) => .ok ({ st with i := i2 }, none, some msg)

/-- Result of the scan loop inside `parser.parseExpr`: `.early` is the
`return` on an unmatched `)` (which skips the trailing checks), `.fell`
is every other way the loop ends. -/
inductive ScanOut where
  | fell (st : PState) (expr : Option Nat) (err : Option String)
  | early (st : PState) (expr : Option Nat) (err : String)
deriving DecidableEq, Repr

/-- The character-dispatch loop of `parser.parseExpr`. -/
def scanLoop (e : List Char) : Nat → PState → Except String ScanOut
  | 0, _ => .error "scan fuel exhausted"
  | f + 1, st =>
      if st.i < e.length then
        match e.get? st.i with
        | none => .error "index out of range"
        | some b =>
            if b == '\n' then
              scanLoop e f { st with i := st.i + 1, line := st.line + 1, lineReset := st.i + 1 }
            else if b == ' ' || b == '\t' || b == '\r' || b == '\x0c' || b == '\x0b' then
              scanLoop e f { st with i := st.i + 1 }
            else if b == '(' then
              scanLoop e f { st with parents := st.prev :: st.parents, prev := none, i := st.i + 1 }
            else if b == ')' then
              match st.parents with
              | [] => .ok (.early st none ("unexpected ) at " ++ posString st.pos))
              | p :: ps => scanLoop e f { st with prev := p, parents := ps, i := st.i + 1 }
            else if b == ',' then scanLoop e f { st with prev := none, i := st.i + 1 }
            else if b == '.' then scanLoop e f { st with i := st.i + 1 }
            else if b == '"' || b == '\'' then
              match parseConstantGo e st with
              | .error m => .error m
              | .ok (st2, ex, er) => .ok (.fell st2 ex er)
            else
              match parseTokenGo e st with
              | .error m => .error m
              | .ok (st2, id) => .ok (.fell st2 (some id) none)
      else .ok (.fell st none none)

/-- The message of the missing-value error in `parser.parseExpr`. -/
def expectingMsg : String := "expression expecting a value but found nothing"

/-- `parser.parseExpr` from texpr.go: the scan loop, then the
missing-parenthesis check, then the empty-placeholder synthesis when the
previously consumed character expects an expression to follow. -/
def parseExprGo (e : List Char) (st : PState) :
    Except String (PState × Option Nat × Option String) :=
  match scanLoop e (e.length + 1) st with
  | .error m => .error m
  | .ok (.early st2 ex er) => .ok (st2, ex, some er)
  | .ok (.fell st2 ex er) =>
      let er2 := if st2.i == e.length && er.isNone && !st2.parents.isEmpty then
          some ("expression missing " ++ toString st2.parents.length ++
            " terminating parenthesis")
        else er
      let trigger := st2.i > 0 && (match e.get? (st2.i - 1) with
        | some c => nextChars c
        | none => false)
      if trigger then
        match newExpr st2 { token := "", constant := false, startP := st2.pos, endP := st2.pos } with
        | .error m => .error m
        | .ok (st3, id) =>
            let st4 := { st3 with emptyAdded := true }
            let er3 := if er2.isNone then some expectingMsg else er2
            .ok (st4, some id, er3)
      else .ok (st2, ex, er2)

/-- The parse loop of `System.Parse`:
`for p.hasData() && err == nil { _, err = p.parseExpr() }`. -/
def parseLoopGo (e : List Char) : Nat → PState → Option String →
    Except String (PState × Option String)
  | 0, _, _ => .error "parse fuel exhausted"
  | f + 1, st, err =>
      if st.i < e.length && err.isNone then
        match parseExprGo e st with
        | .error m => .error m
        | .ok (st2, _, err2) => parseLoopGo e f st2 err2
      else .ok (st, err)

/-- Run the parser on an input from the initial state. -/
def parseRun (e : List Char) : Except String (PState × Option String) :=
  parseLoopGo e (e.length + 1) initPState none

/-- Read a chain out of the parser arena as `PNode` trees (ids created by
`newExpr` only ever point forwards, so the arena size bounds the depth). -/
def arenaChain (nodes : Array RawNode) : Nat → Nat → List PNode
  | 0, _ => []
  | f + 1, id =>
      match nodes.get? id with
      | none => []
      | some nd =>
          PNode.mk nd.token nd.constant (nd.args.map (arenaChain nodes f)) ::
            (match nd.next with
             | none => []
             | some nx => arenaChain nodes f nx)

/-- `Options` from texpr.go (the expression as a character list). -/
structure Options where
  rootType : String
  expectedTypes : List String := []
  expression : List Char

/-- What `System.Parse` returns: the error (first of parse error and link
error), the first node id, the parsed tree read off the arena, and the
fully linked tree when linking succeeded.  (On a link error Go still
leaves partially populated nodes behind; the partial population is not
modelled.) -/
structure ParseResult where
  err : Option String
  first : Option Nat
  raw : List PNode
  linked : Option (List LNode)

/-- The expected-type resolution loop of `System.Parse`. -/
def resolveExpectedTypes (sys : System) : List String → Except String (List Nat)
  | [] => .ok []
  | n :: ns =>
      match sys.findType n with
      | none => .error ("undefined expected type: " ++ n)
      | some i => do
          let rest ← resolveExpectedTypes sys ns
          .ok (i :: rest)

/-- Total number of declared parameters in the system (used to bound the
default-filling loops when choosing link fuel). -/
def System.totalParams (sys : System) : Nat :=
  (sys.types.map (fun t => (t.values.map (fun v => v.parameters.length)).sum)).sum

/-- `System.Parse` from texpr.go.  The `.error` case of the result is a
Go runtime panic (out-of-range string index or nil dereference). -/
def System.parse (sys : System) (opts : Options) : Except String ParseResult :=
  if sys.types.isEmpty then .ok ⟨some "undefined types", none, [], none⟩
  else if opts.expression.isEmpty then .ok ⟨some "undefined expression", none, [], none⟩
  else if opts.rootType = "" then .ok ⟨some "undefined root type", none, [], none⟩
  else
    match sys.findType opts.rootType with
    | none => .ok ⟨some ("undefined root type: " ++ opts.rootType), none, [], none⟩
    | some root =>
        match resolveExpectedTypes sys opts.expectedTypes with
        | .error m => .ok ⟨some m, none, [], none⟩
        | .ok expected =>
            match parseRun opts.expression with
            | .error m => .error m
            | .ok (st, perrMsg) =>
                let raw := match st.first with
                  | none => []
                  | some id => arenaChain st.nodes (st.nodes.size + 1) id
                match sys.link ((8 * st.nodes.size + 8) * (sys.totalParams + 2))
                    raw expected root with
                | .error (.crash m) => .error m
                | .error (.perr m) =>
                    .ok ⟨(match perrMsg with
                          | some p => some p
                          | none => some m), st.first, raw, none⟩
                | .ok chain => .ok ⟨perrMsg, st.first, raw, some chain⟩

/-- `strings.ReplaceAll(token, "'", "\\'")` as used by `Expr.String`
(character-level, kernel-reducible). -/
def escapeQuotesGo (s : String) : String :=
  String.mk (s.data.flatMap (fun c => if c = '\'' then ['\\', '\''] else [c]))

/-- Whether the first byte of a token is a word char (`wordChars[c.Token[0]]`;
Go panics on an empty token, which the printed chains below never have). -/
def headWordChar (tok : String) : Bool :=
  match tok.toList with
  | [] => false
  | c :: _ => wordChars c

/-- `Expr.String` from texpr.go: a leading `.` before non-head nodes whose
token starts with a word char, single-quoted constants with `'` escaped
as `\'` (and nothing else escaped), and comma-joined argument lists. -/
def exprStringF : Nat → Bool → List LNode → String
  | 0, _, _ => ""
  | _ + 1, _, [] => ""
  | f + 1, isFirst, c :: rest =>
      let dot := if !isFirst && headWordChar c.token then "." else ""
      let core := if c.constant then "'" ++ escapeQuotesGo c.token ++ "'" else c.token
      let argsS := if c.args.isEmpty then ""
        else "(" ++ String.intercalate "," (c.args.map (exprStringF f true)) ++ ")"
      dot ++ core ++ argsS ++ exprStringF f false rest

/-!
## Concrete systems used by the claim theorems
-/

/-- A `text` type whose parse function accepts any input (mirrors the
test system's text type). -/
def textTy : Ty := { name := "text", parse := some (fun s => .ok (.str s)) }

/-- Root type with a single value `f : text` whose only parameter carries
a default. -/
def c1Root : Ty :=
  { name := "root",
    values := [{ path := "f", type := "text",
                 parameters := [{ type := "text", name := "p", default := some "d" }] }] }

def c1Sys : System := ⟨[c1Root, textTy]⟩

/-- The value `f` declared above. -/
def c1Value : Value :=
  { path := "f", type := "text",
    parameters := [{ type := "text", name := "p", default := some "d" }] }

/-- Claim C1: with N = 1 declared parameters of which M = 1 carry
defaults, the claim says a call with 0 = N − M arguments succeeds with the
default filled in.  The code instead computes `MinParameters() = 1` (the
loop sets `min = i+1` at every index whose parameter HAS a default, so a
defaulted parameter is required) and rejects the call with the
"expects at least" error; the default-filling loop is unreachable. -/
theorem c1_defaulted_parameter_required :
    c1Value.minParameters = 1 ∧
    c1Value.parameters.length = 1 ∧
    (c1Value.parameters.filter (fun p => p.default.isSome)).length = 1 ∧
    c1Sys.link 10 [PNode.mk "f" false []] [] 0 =
      .error (.perr "f.root expects at least 1 parameters") := by
  refine ⟨rfl, rfl, rfl, rfl⟩

def c2Sys : System := ⟨[textTy]⟩

/-- Claim C2: on an unterminated quoted constant the claim says `Parse`
returns the fatal "did not have a terminating" ParseError without reading
past the input.  The loop of `parser.parseConstant` increments `p.i` and
then reads `p.e[p.i]`, so on input `'a` it reads index 2 of a length-2
string: the call panics with an index-out-of-range runtime error and the
unterminated-quote return is unreachable. -/
theorem c2_unterminated_quote_panics :
    parseConstantGo "'a".toList initPState = .error "index out of range" ∧
    c2Sys.parse { rootType := "text", expression := "'a".toList } =
      .error "index out of range" ∧
    parseConstantGo "'".toList initPState = .error "index out of range" := by
  refine ⟨rfl, rfl, rfl⟩

/-- The canonical string of a successfully parsed and linked expression,
or `none` when parsing failed. -/
def canonicalOf (sys : System) (opts : Options) : Option String :=
  match sys.parse opts with
  | .ok pr =>
      match pr.err, pr.linked with
      | none, some c => some (exprStringF 64 true c)
      | _, _ => none
  | .error _ => none

/-- Claim C6 (round-trip): `Expr.String` quotes constants while escaping
only `'`, so a constant token containing a backslash prints as an escape
sequence that re-parses to a different token.  Input `'a\\b'` (token
`a\b`) links successfully and prints as `'a\b'`; re-parsing that string
yields token `ab` and canonical form `'ab'`, so re-parsing the canonical
string does not reproduce it. -/
theorem c6_roundtrip_fails_on_backslash :
    canonicalOf c2Sys { rootType := "text", expression := "'a\\\\b'".toList } =
      some "'a\\b'" ∧
    canonicalOf c2Sys { rootType := "text", expression := "'a\\b'".toList } =
      some "'ab'" ∧
    "'a\\b'" ≠ "'ab'" := by
  refine ⟨rfl, rfl, by decide⟩

def c9Sys : System := ⟨[{ name := "int" }]⟩

/-- Claim C9 counterexample: `System.Type` stores and looks types up by
the exact declared name (`sys.typeMap[t.Name]`, `s.typeMap[name]`), so a
case variant of a declared type name resolves to nothing: for a system
declaring `int`, `Type("Int")` is nil while `Type("int")` is not, and
`Parse` rejects `RootType: "Int"` as undefined. -/
theorem c9_counterexample :
    c9Sys.findType "Int" ≠ c9Sys.findType "int" ∧
    c9Sys.findType "int" = some 0 ∧
    c9Sys.findType "Int" = none ∧
    c9Sys.parse { rootType := "Int", expression := "x".toList } =
      .ok ⟨some "undefined root type: Int", none, [], none⟩ := by
  refine ⟨by decide, rfl, rfl, rfl⟩

/-- Claim C9 (amended): type-name lookup in `System.Type` is by the exact
declared name — a successful lookup returns a type whose declared name
equals the queried string verbatim, and a name resolves exactly when some
type declares it verbatim (`System.Parse` resolves `RootType` and
`ExpectedTypes` through the same lookup).  Case-insensitivity holds only
for value-path lookup on a type, which normalizes to lowercase. -/
theorem c9_amended :
    (∀ (sys : System) (n : String) (i : Nat),
        sys.findType n = some i → (sys.tyAt i).name = n) ∧
    (∀ (sys : System) (n : String),
        (∃ i, sys.findType n = some i) ↔ ∃ t ∈ sys.types, t.name = n) ∧
    (∀ (t : Ty) (p q : String),
        toLowerGo p = toLowerGo q → t.value p = t.value q) := by
  refine ⟨?_, ?_, ?_⟩
  · intro sys n i h
    unfold System.findType at h
    match hl : (sys.types.enum.filter (fun p => p.2.name = n)).getLast? with
    | none => rw [hl] at h; simp at h
    | some pair =>
        rw [hl] at h
        simp only [Option.map] at h
        have hmem := List.mem_of_mem_getLast? hl
        rw [List.mem_filter] at hmem
        obtain ⟨henum, hname⟩ := hmem
        rw [List.mem_enum_iff_getElem?] at henum
        simp only [decide_eq_true_eq] at hname
        have h2 : sys.tyAt pair.1 = pair.2 := by
          unfold System.tyAt
          rw [List.getD_eq_getElem?_getD, henum]
          rfl
        have h3 : pair.1 = i := by injection h
        rw [← h3, h2, hname]
  · intro sys n
    constructor
    · rintro ⟨i, h⟩
      unfold System.findType at h
      match hl : (sys.types.enum.filter (fun p => p.2.name = n)).getLast? with
      | none => rw [hl] at h; simp at h
      | some pair =>
          have hmem := List.mem_of_mem_getLast? hl
          rw [List.mem_filter] at hmem
          obtain ⟨henum, hname⟩ := hmem
          rw [List.mem_enum_iff_getElem?] at henum
          simp only [decide_eq_true_eq] at hname
          exact ⟨pair.2, List.getElem?_mem henum, hname⟩
    · rintro ⟨t, hmem, hname⟩
      obtain ⟨i, hi, hget⟩ := List.mem_iff_getElem.mp hmem
      have hpair : (i, t) ∈ sys.types.enum.filter (fun p => p.2.name = n) := by
        rw [List.mem_filter, List.mem_enum_iff_getElem?]
        refine ⟨?_, by simpa using hname⟩
        simp [List.getElem?_eq_getElem hi, hget]
      have hne : sys.types.enum.filter (fun p => p.2.name = n) ≠ [] :=
        List.ne_nil_of_mem hpair
      have := List.getLast?_isSome.mpr hne
      unfold System.findType
      match hl : (sys.types.enum.filter (fun p => p.2.name = n)).getLast? with
      | none => rw [hl] at this; simp at this
      | some pair => exact ⟨pair.1, by rw [hl]; rfl⟩
  · intro t p q h
    unfold Ty.value
    rw [h]

/-- Witness for the C9 amended theorem at a concrete system. -/
theorem c9_amended_witness :
    c9Sys.findType "int" = some 0 ∧ (c9Sys.tyAt 0).name = "int" ∧
    toLowerGo "INT" = toLowerGo "int" ∧
    ({ name := "t", values := [{ path := "Go", type := "t" }] } : Ty).value "INT" =
      ({ name := "t", values := [{ path := "Go", type := "t" }] } : Ty).value "int" :=
  ⟨rfl, c9_amended.1 c9Sys "int" 0 rfl, rfl,
    c9_amended.2.2 { name := "t", values := [{ path := "Go", type := "t" }] } "INT" "int" rfl⟩

def c4Root : Ty := { name := "root", values := [{ path := "a", type := "A" }] }
def c4A : Ty := { name := "A" }
def c4Sys : System := ⟨[c4Root, c4A, textTy]⟩

/-- Claim C4 counterexample: in chain `a.b` the token `b` matches no
Value on its context type `A` and is not the sole node of its chain, so
by the claim linking with expected types `[text]` must fail with
"invalid value b".  The code only tests `current.Next == nil`
(chain-final, not sole), so it parses `b` as a `text` constant and
linking succeeds. -/
theorem c4_counterexample :
    c4Sys.link 10 [PNode.mk "a" false [], PNode.mk "b" false []] [2] 0 =
      .ok [LNode.mk "a" false none (some { path := "a", type := "A" }) none
             (some 0) (some 1) [],
           LNode.mk "b" true (some (.str "b")) none none (some 1) (some 2) []] := by
  rfl

/-- Claim C4 (amended): when the walk reaches a node that is pre-marked
constant or matches no Value on its context type, the code branches on
`current.Next == nil` (chain-final) rather than on being the sole node:
a final node with expected types supplied is parsed as a constant against
exactly those expected types (whatever its `Prev`), failing only with the
"did not match expected type(s)" error; a non-final (or
no-expected-types) node with a predecessor is the fatal "invalid value"
error; a first node otherwise guesses its type over the parser priority
list, failing with "type could not be determined". -/
theorem c4_amended (f : Nat) (sys : System) (expectedTypes : List Nat) (root : Nat)
    (isFirst : Bool) (parentTy : Nat) (tok : String) (konst : Bool)
    (args : List (List PNode)) (rest : List PNode)
    (hDead : (sys.tyAt parentTy).value tok = none ∨ konst = true) :
    (isFirst = false → ¬(rest = [] ∧ expectedTypes ≠ []) →
      walkF (f + 1) sys expectedTypes root isFirst parentTy
        (PNode.mk tok konst args :: rest) =
        .error (.perr ("invalid value " ++ tok))) ∧
    (rest = [] → expectedTypes ≠ [] →
      (sys.firstParse expectedTypes tok = none →
        walkF (f + 1) sys expectedTypes root isFirst parentTy
          (PNode.mk tok konst args :: rest) =
          .error (.perr ("constant " ++ tok ++ " did not match expected type(s) " ++
            getTypeNames sys expectedTypes))) ∧
      (∀ t pv, sys.firstParse expectedTypes tok = some (t, pv) →
        walkF (f + 1) sys expectedTypes root isFirst parentTy
          (PNode.mk tok konst args :: rest) =
          .ok [LNode.mk tok true (some pv) none none (some parentTy) (some t)
            (args.map (rawToLF f))])) ∧
    (isFirst = true → ¬(rest = [] ∧ expectedTypes ≠ []) →
      sys.firstParse sys.parseOrderIdx tok = none →
      walkF (f + 1) sys expectedTypes root isFirst parentTy
        (PNode.mk tok konst args :: rest) =
        .error (.perr ("type could not be determined for " ++ tok))) := by
  refine ⟨?_, ?_, ?_⟩
  · intro hif hnot
    have hcond : (rest.isEmpty && !expectedTypes.isEmpty) = false := by
      rcases Classical.em (rest = []) with hr | hr
      · have hx : expectedTypes = [] := by
          by_contra hx
          exact hnot ⟨hr, hx⟩
        simp [hx]
      · simp [List.isEmpty_iff, hr]
    simp only [walkF, linkPack, PNode.token, PNode.constant, PNode.args]
    rcases hDead with hnone | htrue
    · simp [hnone, hcond, hif]
    · cases hlk : (sys.tyAt parentTy).value tok with
      | none => simp [hlk, hcond, hif]
      | some v => simp [hlk, htrue, hcond, hif]
  · intro hr hx
    have hcond : (rest.isEmpty && !expectedTypes.isEmpty) = true := by
      simp [hr, hx]
    constructor
    · intro hfp
      simp only [walkF, linkPack, PNode.token, PNode.constant, PNode.args]
      rcases hDead with hnone | htrue
      · simp [hnone, hcond, System.setConstant, hfp]
      · cases hlk : (sys.tyAt parentTy).value tok with
        | none => simp [hlk, hcond, System.setConstant, hfp]
        | some v => simp [hlk, htrue, hcond, System.setConstant, hfp]
    · intro t pv hfp
      simp only [walkF, linkPack, PNode.token, PNode.constant, PNode.args]
      rcases hDead with hnone | htrue
      · simp [hnone, hcond, System.setConstant, hfp]
      · cases hlk : (sys.tyAt parentTy).value tok with
        | none => simp [hlk, hcond, System.setConstant, hfp]
        | some v => simp [hlk, htrue, hcond, System.setConstant, hfp]
  · intro hif hnot hfp
    have hcond : (rest.isEmpty && !expectedTypes.isEmpty) = false := by
      rcases Classical.em (rest = []) with hr | hr
      · have hx : expectedTypes = [] := by
          by_contra hx
          exact hnot ⟨hr, hx⟩
        simp [hx]
      · simp [List.isEmpty_iff, hr]
    simp only [walkF, linkPack, PNode.token, PNode.constant, PNode.args]
    rcases hDead with hnone | htrue
    · simp [hnone, hcond, hif, System.setConstant, hfp]
    · cases hlk : (sys.tyAt parentTy).value tok with
      | none => simp [hlk, hcond, hif, System.setConstant, hfp]
      | some v => simp [hlk, htrue, hcond, hif, System.setConstant, hfp]

/-- Witness for the C4 amended theorem: `sun`-style mid-chain unknown
token with no expected types is the "invalid value" error. -/
theorem c4_amended_witness :
    (c4Sys.tyAt 1).value "b" = none ∧
    walkF 6 c4Sys [] 0 false 1 [PNode.mk "b" false []] =
      .error (.perr "invalid value b") :=
  ⟨rfl, (c4_amended 5 c4Sys [] 0 false 1 "b" false [] [] (Or.inl rfl)).1 rfl
    (by simp)⟩

/-- Decomposition of a successful `findSome?`: the list splits at the
first element the function accepts, and everything before it is refused. -/
theorem findSome?_decomp {α β : Type} (f : α → Option β) :
    ∀ (l : List α) (b : β), l.findSome? f = some b →
      ∃ pre a post, l = pre ++ a :: post ∧ f a = some b ∧ ∀ x ∈ pre, f x = none
  | [], b, h => by simp [List.findSome?] at h
  | x :: xs, b, h => by
      cases hfx : f x with
      | some y =>
          rw [List.findSome?_cons, hfx] at h
          exact ⟨[], x, xs, rfl, by rw [hfx]; exact h, by simp⟩
      | none =>
          rw [List.findSome?_cons, hfx] at h
          obtain ⟨pre, a, post, hsplit, hfa, hpre⟩ := findSome?_decomp f xs b h
          refine ⟨x :: pre, a, post, by rw [hsplit]; rfl, hfa, ?_⟩
          intro z hz
          rcases List.mem_cons.mp hz with hz | hz
          · rw [hz]; exact hfx
          · exact hpre z hz

/-- Claim C5: after a fully walked chain, with expected types supplied and
the final node's type `τ` not among them, `convertToExpected` appends
exactly one synthesized conversion node for the first expected type that
`τ`'s `As` map covers (every earlier expected type has no entry), after
which linking succeeds; with no such entry the chain is unchanged and
linking fails with the "expected type(s) X but was given Y instead"
error.  `System.link` routes every successful walk through this phase. -/
theorem c5_final_conversion
    (sys : System) (expectedTypes : List Nat) (walked : List LNode)
    (last : LNode) (t0 : Nat)
    (hlast : walked.getLast? = some last)
    (hty : last.ty = some t0)
    (hnot : typeOneOf sys last expectedTypes = false)
    (hne : expectedTypes ≠ []) :
    (∀ et cv, sys.findConversion t0 expectedTypes = some (et, cv) →
        sys.linkFinish expectedTypes walked =
          .ok (walked ++
            [LNode.mk cv.path false none (some cv) none (some t0) (some et) []]) ∧
        ∃ pre post, expectedTypes = pre ++ et :: post ∧
          ∀ x ∈ pre, (sys.tyAt t0).asValue (sys.nameAt x) = none) ∧
    (sys.findConversion t0 expectedTypes = none →
        sys.linkFinish expectedTypes walked =
          .error (.perr ("expected type(s) " ++ getTypeNames sys expectedTypes ++
            " but was given " ++ sys.nameAt t0 ++ " instead"))) ∧
    (∀ f chain root, walkF f sys expectedTypes root true root chain = .ok walked →
        linkF (f + 1) sys chain expectedTypes root =
          sys.linkFinish expectedTypes walked) := by
  have hempty : expectedTypes.isEmpty = false := by
    simp [List.isEmpty_iff, hne]
  refine ⟨?_, ?_, ?_⟩
  · intro et cv hfc
    obtain ⟨pre, a, post, hsplit, hfa, hpre⟩ :=
      findSome?_decomp _ expectedTypes (et, cv) hfc
    have haa : a = et ∧ (sys.tyAt t0).asValue (sys.nameAt a) = some cv := by
      rcases Option.map_eq_some'.mp hfa with ⟨cv2, hcv2, heq⟩
      have h1 : a = et := congrArg Prod.fst heq
      have h2 : cv2 = cv := congrArg Prod.snd heq
      exact ⟨h1, by rw [hcv2, h2]⟩
    have hconv : sys.convertToExpected walked expectedTypes =
        .ok (walked ++
          [LNode.mk cv.path false none (some cv) none (some t0) (some et) []]) := by
      unfold System.convertToExpected
      rw [hlast]
      simp [hempty, hnot, hty, hfc]
    constructor
    · unfold System.linkFinish
      rw [hconv]
      have hlast2 : (walked ++
          [LNode.mk cv.path false none (some cv) none (some t0) (some et) []]).getLast?
          = some (LNode.mk cv.path false none (some cv) none (some t0) (some et) []) :=
        List.getLast?_concat _
      simp only [hlast2]
      have hone : typeOneOf sys
          (LNode.mk cv.path false none (some cv) none (some t0) (some et) [])
          expectedTypes = true := by
        unfold typeOneOf
        simp only [LNode.ty]
        have het : et ∈ expectedTypes := by
          rw [hsplit, ← haa.1]
          exact List.mem_append_right _ (List.mem_cons_self a post)
        rw [List.any_eq_true]
        exact ⟨et, het, by simp⟩
      simp [hone]
    · refine ⟨pre, post, by rw [hsplit, haa.1], ?_⟩
      intro x hx
      have := hpre x hx
      rcases hmap : (sys.tyAt t0).asValue (sys.nameAt x) with _ | w
      · rfl
      · rw [hmap] at this
        simp at this
  · intro hfc
    have hconv : sys.convertToExpected walked expectedTypes = .ok walked := by
      unfold System.convertToExpected
      rw [hlast]
      simp [hempty, hnot, hty, hfc]
    unfold System.linkFinish
    rw [hconv]
    simp only [hlast]
    simp [hempty, hnot, hty]
  · intro f chain root hwalk
    simp only [linkF, walkF, linkPack] at hwalk ⊢
    rw [hwalk]
    rfl

def c5Bool : Ty :=
  { name := "bool", enums := ["true", "false"], as := [("text", "text")],
    values := [{ path := "text", type := "text" }] }

def c5Sys : System := ⟨[c5Bool, textTy]⟩

def c5Node : LNode := LNode.mk "x" false none none none none (some 0) []

/-- Witness for C5: a bool-typed final node with expected type `text`
gets exactly the registered `text` conversion value appended. -/
theorem c5_final_conversion_witness :
    [c5Node].getLast? = some c5Node ∧
    c5Node.ty = some 0 ∧
    typeOneOf c5Sys c5Node [1] = false ∧
    c5Sys.findConversion 0 [1] = some (1, { path := "text", type := "text" }) ∧
    c5Sys.linkFinish [1] [c5Node] =
      .ok [c5Node, LNode.mk "text" false none (some { path := "text", type := "text" })
        none (some 0) (some 1) []] :=
  ⟨rfl, rfl, rfl, rfl,
    ((c5_final_conversion c5Sys [1] [c5Node] c5Node 0 rfl rfl rfl (by simp)).1
      1 { path := "text", type := "text" } rfl).1⟩

theorem parseLess_irrefl (a : Ty) : parseLess a a = false := by
  unfold parseLess
  simp

theorem parseLess_asymm (a b : Ty) (h : parseLess a b = true) :
    parseLess b a = false := by
  unfold parseLess at h ⊢
  split_ifs at h ⊢ <;> simp_all <;> omega

theorem parseLess_negtrans (a b c : Ty) (h1 : parseLess b a = false)
    (h2 : parseLess c b = false) : parseLess c a = false := by
  unfold parseLess at h1 h2 ⊢
  split_ifs at h1 h2 ⊢ <;> simp_all <;> omega

/-- Claim C7: the literal-parser priority list contains exactly the types
with a Parse function or non-empty enums; it is sorted so that no later
entry compares strictly before an earlier one under `NewSystem`'s
comparator (descending ParseOrder, then Parse-function presence, then
longer names); and the type chosen for an untyped first-node literal is
never beaten by another priority-list type that also parses the token and
compares strictly higher. -/
theorem c7_parse_priority (sys : System) :
    (∀ i, i ∈ sys.parseOrderIdx ↔
      (i < sys.types.length ∧ (sys.tyAt i).hasConstantParsing = true)) ∧
    sys.parseOrderIdx.Perm sys.parseCandidates ∧
    List.Pairwise (fun i j => parseLess (sys.tyAt j) (sys.tyAt i) = false)
      sys.parseOrderIdx ∧
    (∀ tok t pv j, sys.firstParse sys.parseOrderIdx tok = some (t, pv) →
      j ∈ sys.parseOrderIdx → (∃ v, (sys.tyAt j).parseInput tok = .ok v) →
      parseLess (sys.tyAt j) (sys.tyAt t) = false) := by
  have hperm : sys.parseOrderIdx.Perm sys.parseCandidates :=
    List.perm_insertionSort _ _
  haveI htot : IsTotal Nat (fun i j => parseLess (sys.tyAt j) (sys.tyAt i) = false) := by
    constructor
    intro i j
    rcases Classical.em (parseLess (sys.tyAt j) (sys.tyAt i) = false) with h | h
    · exact Or.inl h
    · have ht : parseLess (sys.tyAt j) (sys.tyAt i) = true := by
        cases hv : parseLess (sys.tyAt j) (sys.tyAt i)
        · exact absurd hv h
        · rfl
      exact Or.inr (parseLess_asymm _ _ ht)
  haveI htr : IsTrans Nat (fun i j => parseLess (sys.tyAt j) (sys.tyAt i) = false) := by
    constructor
    intro i j k hij hjk
    exact parseLess_negtrans _ _ _ hij hjk
  have hsorted : List.Pairwise (fun i j => parseLess (sys.tyAt j) (sys.tyAt i) = false)
      sys.parseOrderIdx :=
    List.sorted_insertionSort _ _
  refine ⟨?_, hperm, hsorted, ?_⟩
  · intro i
    rw [hperm.mem_iff]
    unfold System.parseCandidates
    rw [List.mem_filter, List.mem_range]
  · intro tok t pv j hfp hj hok
    unfold System.firstParse at hfp
    obtain ⟨pre, a, post, hsplit, hfa, hpre⟩ := findSome?_decomp _ _ _ hfp
    have hat : a = t := by
      rcases hpi : (sys.tyAt a).parseInput tok with m | v
      · rw [hpi] at hfa; simp at hfa
      · rw [hpi] at hfa
        simp at hfa
        exact hfa.1
    obtain ⟨v, hv⟩ := hok
    have hjnotpre : j ∉ pre := by
      intro hmem
      have := hpre j hmem
      rw [hv] at this
      simp at this
    rw [hsplit] at hj hsorted
    rcases List.mem_append.mp hj with hj | hj
    · exact absurd hj hjnotpre
    · rcases List.mem_cons.mp hj with hj | hj
      · rw [hj, hat]
        exact parseLess_irrefl _
      · have hpw := (List.pairwise_append.mp hsorted).2.1
        rw [List.pairwise_cons] at hpw
        rw [← hat]
        exact hpw.1 j hj

def c7Text : Ty :=
  { name := "text", parseOrder := -1, parse := some (fun s => .ok (.str s)) }

def c7Bool : Ty :=
  { name := "bool",
    parse := some (fun s => if s = "true" then .ok (.bool true) else .error "invalid bool") }

def c7Sys : System := ⟨[c7Text, c7Bool]⟩

/-- Witness for C7: with `bool` (ParseOrder 0) and `text` (ParseOrder −1)
both parsing "true", the priority list puts `bool` first and the literal
guess picks it; `text` does not compare strictly before `bool`. -/
theorem c7_parse_priority_witness :
    c7Sys.parseOrderIdx = [1, 0] ∧
    c7Sys.firstParse c7Sys.parseOrderIdx "true" = some (1, .bool true) ∧
    0 ∈ c7Sys.parseOrderIdx ∧
    (c7Sys.tyAt 0).parseInput "true" = .ok (.str "true") ∧
    parseLess (c7Sys.tyAt 0) (c7Sys.tyAt 1) = false :=
  ⟨rfl, rfl, by decide, rfl,
    (c7_parse_priority c7Sys).2.2.2 "true" 1 (.bool true) 0 rfl (by decide)
      ⟨.str "true", rfl⟩⟩

theorem mapM_except_ok_length {α β ε : Type} (g : α → Except ε β) :
    ∀ (l : List α) (r : List β), l.mapM g = .ok r → r.length = l.length
  | [], r, h => by
      rw [List.mapM_nil] at h
      cases h
      rfl
  | a :: l, r, h => by
      rw [List.mapM_cons] at h
      cases hga : g a with
      | error e => rw [hga] at h; exact absurd h (fun hh => Except.noConfusion hh)
      | ok b =>
          rw [hga] at h
          cases hgl : l.mapM g with
          | error e => rw [hgl] at h; exact absurd h (fun hh => Except.noConfusion hh)
          | ok bs =>
              rw [hgl] at h
              have : b :: bs = r := Except.ok.inj h
              rw [← this]
              simp [mapM_except_ok_length g l bs hgl]

theorem mapM_except_ok_get {α β ε : Type} (g : α → Except ε β) :
    ∀ (l : List α) (r : List β) (k : Nat) (a : α) (b : β), l.mapM g = .ok r →
      l[k]? = some a → r[k]? = some b → g a = .ok b
  | [], r, k, a, b, h, ha, hb => by simp at ha
  | x :: l, r, k, a, b, h, ha, hb => by
      rw [List.mapM_cons] at h
      cases hga : g x with
      | error e => rw [hga] at h; exact absurd h (fun hh => Except.noConfusion hh)
      | ok y =>
          rw [hga] at h
          cases hgl : l.mapM g with
          | error e => rw [hgl] at h; exact absurd h (fun hh => Except.noConfusion hh)
          | ok ys =>
              rw [hgl] at h
              have hr : y :: ys = r := Except.ok.inj h
              cases k with
              | zero =>
                  rw [← hr] at hb
                  simp at ha hb
                  rw [← ha, hga, hb]
              | succ k =>
                  rw [← hr] at hb
                  simp at ha hb
                  exact mapM_except_ok_get g l ys k a b hgl ha hb

def c3A : Ty := { name := "A" }

def c3B : Ty :=
  { name := "B", as := [("A", "v")], values := [{ path := "v", type := "A" }] }

def c3gParam : Parameter := { type := "", generic := true, name := "x" }

def c3g : Value := { path := "g", generic := true, parameters := [c3gParam] }

def c3Root : Ty :=
  { name := "root", values := [{ path := "u", type := "B" }, c3g] }

def c3Sys : System := ⟨[c3A, c3B, c3Root]⟩

/-- Claim C3 counterexample: for `g(u.v)` — one generic argument whose
chain starts at type `B` (index 1) and produces type `A` (index 0) —
generic resolution reads the argument chain's HEAD type field, so the
node's resolved type is `B`, not the argument's (final) type `A`; and no
implicit conversion is appended to the argument (its chain keeps exactly
its two nodes) even though its produced type `A` differs from the
resolved type `B`. -/
theorem c3_counterexample :
    c3Sys.link 20
      [PNode.mk "g" false [[PNode.mk "u" false [], PNode.mk "v" false []]]] [] 2 =
      .ok [LNode.mk "g" false none (some c3g) none (some 2) (some 1)
            [[LNode.mk "u" false none (some { path := "u", type := "B" })
                (some c3gParam) (some 2) (some 1) [],
              LNode.mk "v" false none (some { path := "v", type := "A" })
                none (some 1) (some 0) []]]] ∧
    (some 1 : Option Nat) ≠ some 0 := by
  exact ⟨rfl, by decide⟩

/-- Claim C3 (amended): generic resolution collects the `Type` field of
the HEAD node of each generic argument chain (`arg.Type` where `arg` is
the argument entry itself).  `getBaseType` then returns: the sole
collected type; the shared type when all collected entries are the same
type pointer; else the first collected type `T` such that every collected
type either shares `T`'s name or carries an `As` entry for it — and the
node fails with "generic type could not be determined" exactly when no
such `T` exists.  On success `convertToExpected` runs on the LAST node of
each generic argument chain: a single conversion node is appended exactly
when that node's type does not match `T` by name and its type has an `As`
entry for `T`; otherwise the argument is left unchanged, silently. -/
theorem c3_amended :
    (∀ (sys : System) (ts : List Nat) (t : Nat), getBaseType sys ts = some t →
        t ∈ ts ∧ ∀ b ∈ ts, sys.nameAt t = sys.nameAt b ∨
          ((sys.tyAt b).asValue (sys.nameAt t)).isSome = true) ∧
    (∀ (sys : System) (t0 : Nat), getBaseType sys [t0] = some t0) ∧
    (∀ (sys : System) (v : Value) (tok : String) (args : List (List LNode)),
        v.generic = true →
        ((getBaseType sys (genericArgTypes args) = none →
          sys.resolveGeneric v tok args =
            .error (.perr ("generic type could not be determined for " ++ tok))) ∧
        (∀ t args2, sys.resolveGeneric v tok args = .ok (t, args2) →
          getBaseType sys (genericArgTypes args) = some t ∧
          args2.length = args.length ∧
          ∀ (k : Nat) (c c2 : List LNode), args[k]? = some c → args2[k]? = some c2 →
            (headParamGeneric c = false → c2 = c) ∧
            (headParamGeneric c = true → sys.convertToExpected c [t] = .ok c2)))) ∧
    (∀ (sys : System) (t : Nat) (c : List LNode) (last : LNode) (lt : Nat),
        c.getLast? = some last → last.ty = some lt →
        (typeOneOf sys last [t] = true → sys.convertToExpected c [t] = .ok c) ∧
        (typeOneOf sys last [t] = false →
          (((sys.tyAt lt).asValue (sys.nameAt t) = none →
            sys.convertToExpected c [t] = .ok c) ∧
          (∀ cv, (sys.tyAt lt).asValue (sys.nameAt t) = some cv →
            sys.convertToExpected c [t] =
              .ok (c ++ [LNode.mk cv.path false none (some cv) none (some lt)
                (some t) []]))))) := by
  refine ⟨?_, ?_, ?_, ?_⟩
  · intro sys ts t h
    cases ts with
    | nil => simp [getBaseType] at h
    | cons t0 rest =>
        simp only [getBaseType] at h
        by_cases hr : rest.isEmpty
        · rw [if_pos hr] at h
          cases h
          have hnil : rest = [] := List.isEmpty_iff.mp hr
          subst hnil
          refine ⟨List.mem_singleton_self _, ?_⟩
          intro b hb
          rw [List.mem_singleton] at hb
          subst hb
          exact Or.inl rfl
        · rw [if_neg hr] at h
          by_cases hall : rest.all (fun x => x == t0) = true
          · rw [if_pos hall] at h
            have ht : t0 = t := Option.some.inj h
            subst ht
            have hmem : ∀ b ∈ t0 :: rest, b = t0 := by
              intro b hb
              rcases List.mem_cons.mp hb with hb | hb
              · exact hb
              · exact eq_of_beq ((List.all_eq_true.mp hall) b hb)
            refine ⟨List.mem_cons_self _ _, ?_⟩
            intro b hb
            rw [hmem b hb]
            exact Or.inl rfl
          · rw [if_neg hall] at h
            have hmem := List.mem_of_find?_eq_some h
            have hpred := List.find?_some h
            rw [List.all_eq_true] at hpred
            refine ⟨hmem, ?_⟩
            intro b hb
            have hor := hpred b hb
            rw [Bool.or_eq_true] at hor
            rcases hor with h1 | h1
            · exact Or.inl (eq_of_beq h1)
            · exact Or.inr h1
  · intro sys t0
    rfl
  · intro sys v tok args hgen
    have hgt : v.getType sys args = getBaseType sys (genericArgTypes args) := by
      unfold Value.getType
      rw [hgen]
      rfl
    constructor
    · intro hnone
      unfold System.resolveGeneric
      rw [hgt, hnone]
    · intro t args2 h
      unfold System.resolveGeneric at h
      rw [hgt] at h
      cases hgb : getBaseType sys (genericArgTypes args) with
      | none =>
          simp only [hgb] at h
          exact absurd h (fun hh => Except.noConfusion hh)
      | some t2 =>
          simp only [hgb] at h
          cases hmm : args.mapM (fun c =>
              if headParamGeneric c then sys.convertToExpected c [t2] else pure c) with
          | error e =>
              simp only [hmm] at h
              exact absurd h (fun hh => Except.noConfusion hh)
          | ok r =>
              simp only [hmm] at h
              have hpair := Except.ok.inj h
              have ht2 : t2 = t := congrArg Prod.fst hpair
              have hr : r = args2 := congrArg Prod.snd hpair
              subst ht2
              subst hr
              refine ⟨rfl, mapM_except_ok_length _ _ _ hmm, ?_⟩
              intro k c c2 hc hc2
              have hg := mapM_except_ok_get _ _ _ k c c2 hmm hc hc2
              constructor
              · intro hfalse
                rw [hfalse] at hg
                simp only [Bool.false_eq_true, if_false] at hg
                exact Except.ok.inj hg.symm
              · intro htrue
                rw [htrue] at hg
                simpa using hg
  · intro sys t c last lt hlast hty
    constructor
    · intro hone
      unfold System.convertToExpected
      rw [hlast]
      simp [hone]
    · intro hnot
      have hfc : sys.findConversion lt [t] =
          ((sys.tyAt lt).asValue (sys.nameAt t)).map (fun cv => (t, cv)) := by
        unfold System.findConversion
        rw [List.findSome?_cons]
        cases hmv : ((sys.tyAt lt).asValue (sys.nameAt t)).map (fun cv => (t, cv)) with
        | none => simp_all
        | some p => simp_all
      constructor
      · intro hnone
        unfold System.convertToExpected
        rw [hlast]
        simp [hnot, hty, hfc, hnone]
      · intro cv hcv
        unfold System.convertToExpected
        rw [hlast]
        simp [hnot, hty, hfc, hcv]

def c3uNode : LNode :=
  LNode.mk "u" false none (some { path := "u", type := "B" }) (some c3gParam)
    (some 2) (some 1) []

/-- Witness for the C3 amended theorem at a single-argument generic call. -/
theorem c3_amended_witness :
    c3Sys.resolveGeneric c3g "g" [[c3uNode]] = .ok (1, [[c3uNode]]) ∧
    getBaseType c3Sys (genericArgTypes [[c3uNode]]) = some 1 :=
  ⟨rfl, ((c3_amended.2.2.1 c3Sys c3g "g" [[c3uNode]] rfl).2 1 [[c3uNode]] rfl).1⟩

def c10Sys : System := ⟨[{ name := "root" }, textTy]⟩

def c10Opts : Options :=
  { rootType := "root", expectedTypes := ["text"], expression := "x(a)".toList }

/-- Claim C10 counterexample: `Parse` on `x(a)` with expected type `text`
returns a non-nil head and a nil error (the unknown final token `x` is
parsed as a `text` constant), yet the argument node `a` hanging off the
constant head is reachable via `Arguments` and was never linked: its
`Type` is nil. -/
theorem c10_counterexample :
    c10Sys.parse c10Opts =
      .ok { err := none, first := some 0,
            raw := [PNode.mk "x" false [[PNode.mk "a" false []]]],
            linked := some [LNode.mk "x" true (some (.str "x")) none none (some 0)
              (some 1) [[LNode.mk "a" false none none none none none []]]] } := by
  rfl

/-- Every non-generic value declared in the system has a resolvable
return type (guaranteed by `NewSystem`'s whole-graph validation pass). -/
def validValueTypes (sys : System) : Prop :=
  ∀ t ∈ sys.types, ∀ v ∈ t.values, v.generic = false →
    (sys.findType v.type).isSome = true

/-- The linked-node invariant (bounded type pointer, value on
non-constants, and recursively linked arguments of value-carrying
nodes).  Arguments of constant nodes are unconstrained. -/
inductive WellNode (bound : Nat) : LNode → Prop where
  | intro : ∀ (tok : String) (konst : Bool) (parsed : Option GoVal)
      (value : Option Value) (parameter : Option Parameter)
      (parentType : Option Nat) (ty : Option Nat) (args : List (List LNode)),
      (∃ x, ty = some x ∧ x < bound) →
      (konst = false → value.isSome = true) →
      (value.isSome = true → ∀ c ∈ args, ∀ nd ∈ c, WellNode bound nd) →
      WellNode bound (LNode.mk tok konst parsed value parameter parentType ty args)

/-- All nodes of a chain satisfy the linked-node invariant. -/
def ChainWell (bound : Nat) (c : List LNode) : Prop := ∀ nd ∈ c, WellNode bound nd

theorem value_mem (t : Ty) (tok : String) (v : Value) (h : t.value tok = some v) :
    v ∈ t.values := by
  unfold Ty.value at h
  match hl : (t.valueEntries.filter (fun p => p.1 = toLowerGo tok)).getLast? with
  | none => rw [hl] at h; simp at h
  | some pair =>
      rw [hl] at h
      simp only [Option.map] at h
      have hmem := List.mem_of_mem_getLast? hl
      rw [List.mem_filter] at hmem
      have hent := hmem.1
      unfold Ty.valueEntries at hent
      rw [List.mem_flatten] at hent
      obtain ⟨l, hlmem, hpl⟩ := hent
      rw [List.mem_map] at hlmem
      obtain ⟨w, hw, hfw⟩ := hlmem
      rw [← hfw] at hpl
      have hv : pair.2 = w := by
        rcases List.mem_cons.mp hpl with hp | hp
        · rw [hp]
        · rw [List.mem_map] at hp
          obtain ⟨a, _, ha⟩ := hp
          rw [← ha]
      have : pair.2 = v := by injection h
      rw [← this, hv]
      exact hw

theorem findType_lt (sys : System) (n : String) (i : Nat)
    (h : sys.findType n = some i) : i < sys.types.length := by
  unfold System.findType at h
  match hl : (sys.types.enum.filter (fun p => p.2.name = n)).getLast? with
  | none => rw [hl] at h; simp at h
  | some pair =>
      rw [hl] at h
      simp only [Option.map] at h
      have hmem := List.mem_of_mem_getLast? hl
      rw [List.mem_filter] at hmem
      have henum := List.mem_enum_iff_getElem?.mp hmem.1
      have hlt : pair.1 < sys.types.length := by
        by_contra hge
        rw [List.getElem?_eq_none (by omega)] at henum
        exact Option.noConfusion henum
      have : pair.1 = i := by injection h
      omega

theorem mem_parseOrderIdx_lt (sys : System) (i : Nat)
    (h : i ∈ sys.parseOrderIdx) : i < sys.types.length := by
  unfold System.parseOrderIdx at h
  have := (List.perm_insertionSort _ _).mem_iff.mp h
  unfold System.parseCandidates at this
  rw [List.mem_filter, List.mem_range] at this
  exact this.1

theorem firstParse_mem (sys : System) (tryTypes : List Nat) (tok : String)
    (t : Nat) (pv : GoVal) (h : sys.firstParse tryTypes tok = some (t, pv)) :
    t ∈ tryTypes := by
  unfold System.firstParse at h
  obtain ⟨pre, a, post, hsplit, hfa, _⟩ := findSome?_decomp _ _ _ h
  have hat : a = t := by
    rcases hpi : (sys.tyAt a).parseInput tok with m | v
    · rw [hpi] at hfa; simp at hfa
    · rw [hpi] at hfa
      simp at hfa
      exact hfa.1
  rw [hsplit, ← hat]
  exact List.mem_append_right _ (List.mem_cons_self a post)

theorem getBaseType_mem (sys : System) (ts : List Nat) (t : Nat)
    (h : getBaseType sys ts = some t) : t ∈ ts := by
  cases ts with
  | nil => simp [getBaseType] at h
  | cons t0 rest =>
      simp only [getBaseType] at h
      by_cases hr : rest.isEmpty
      · rw [if_pos hr] at h
        have ht : t0 = t := Option.some.inj h
        rw [← ht]
        exact List.mem_cons_self _ _
      · rw [if_neg hr] at h
        by_cases hall : rest.all (fun x => x == t0) = true
        · rw [if_pos hall] at h
          have ht : t0 = t := Option.some.inj h
          rw [← ht]
          exact List.mem_cons_self _ _
        · rw [if_neg hall] at h
          exact List.mem_of_find?_eq_some h

theorem genericArgTypes_mem (args : List (List LNode)) (x : Nat)
    (h : x ∈ genericArgTypes args) :
    ∃ c ∈ args, ∃ hd, c.head? = some hd ∧ hd.ty = some x := by
  unfold genericArgTypes at h
  rw [List.mem_filterMap] at h
  obtain ⟨c, hc, hf⟩ := h
  refine ⟨c, hc, ?_⟩
  cases hh : c.head? with
  | none =>
      simp only [hh] at hf
      exact Option.noConfusion hf
  | some hd =>
      simp only [hh] at hf
      by_cases hcond : (hd.ty.isSome && ((hd.parameter.map Parameter.generic).getD false)) = true
      · rw [if_pos hcond] at hf
        exact ⟨hd, rfl, hf⟩
      · rw [if_neg hcond] at hf
        simp at hf

theorem mapM_except_ok_mem {α β ε : Type} (g : α → Except ε β) :
    ∀ (l : List α) (r : List β), l.mapM g = .ok r →
      ∀ y ∈ r, ∃ x ∈ l, g x = .ok y
  | [], r, h => by
      rw [List.mapM_nil] at h
      cases h
      intro y hy
      simp at hy
  | a :: l, r, h => by
      rw [List.mapM_cons] at h
      cases hga : g a with
      | error e => rw [hga] at h; exact absurd h (fun hh => Except.noConfusion hh)
      | ok b =>
          rw [hga] at h
          cases hgl : l.mapM g with
          | error e => rw [hgl] at h; exact absurd h (fun hh => Except.noConfusion hh)
          | ok bs =>
              rw [hgl] at h
              have hr : b :: bs = r := Except.ok.inj h
              intro y hy
              rw [← hr] at hy
              rcases List.mem_cons.mp hy with hy | hy
              · exact ⟨a, List.mem_cons_self _ _, by rw [hga, hy]⟩
              · obtain ⟨x, hx, hgx⟩ := mapM_except_ok_mem g l bs hgl y hy
                exact ⟨x, List.mem_cons_of_mem _ hx, hgx⟩

theorem WellNode.ty_bound {bound : Nat} {nd : LNode} (h : WellNode bound nd) :
    ∃ x, nd.ty = some x ∧ x < bound := by
  cases h with
  | intro tok k p v pa pt ty args h1 h2 h3 => exact h1

theorem findConversion_mem (sys : System) (fromTy : Nat) (expected : List Nat)
    (et : Nat) (cv : Value) (h : sys.findConversion fromTy expected = some (et, cv)) :
    et ∈ expected := by
  unfold System.findConversion at h
  obtain ⟨pre, a, post, hsplit, hfa, _⟩ := findSome?_decomp _ _ _ h
  have hat : a = et := by
    rcases hm : (sys.tyAt fromTy).asValue (sys.nameAt a) with _ | w
    · rw [hm] at hfa; simp at hfa
    · rw [hm] at hfa
      simp at hfa
      exact hfa.1
  rw [hsplit, ← hat]
  exact List.mem_append_right _ (List.mem_cons_self a post)

theorem convertToExpected_well (sys : System) (bound : Nat) (c : List LNode)
    (expected : List Nat) (r : List LNode)
    (hc : ChainWell bound c) (hexp : ∀ e ∈ expected, e < bound)
    (h : sys.convertToExpected c expected = .ok r) : ChainWell bound r := by
  unfold System.convertToExpected at h
  cases hl : c.getLast? with
  | none =>
      simp only [hl] at h
      have : c = r := Except.ok.inj h
      rw [← this]
      exact hc
  | some last =>
      simp only [hl] at h
      by_cases hcond : (expected.isEmpty || typeOneOf sys last expected) = true
      · rw [if_pos hcond] at h
        have : c = r := Except.ok.inj h
        rw [← this]
        exact hc
      · rw [if_neg hcond] at h
        cases hty : last.ty with
        | none =>
            simp only [hty] at h
            exact absurd h (fun hh => Except.noConfusion hh)
        | some lt =>
            simp only [hty] at h
            cases hfc : sys.findConversion lt expected with
            | none =>
                simp only [hfc] at h
                have : c = r := Except.ok.inj h
                rw [← this]
                exact hc
            | some p =>
                simp only [hfc] at h
                have hr : c ++ [LNode.mk p.2.path false none (some p.2) none
                    (some lt) (some p.1) []] = r := Except.ok.inj h
                rw [← hr]
                intro nd hnd
                rcases List.mem_append.mp hnd with hnd | hnd
                · exact hc nd hnd
                · rw [List.mem_singleton] at hnd
                  rw [hnd]
                  refine WellNode.intro _ _ _ _ _ _ _ _ ⟨p.1, rfl, ?_⟩
                    (fun _ => rfl) (fun _ => by simp)
                  exact hexp p.1 (findConversion_mem sys lt expected p.1 p.2
                    (by rw [hfc]))

theorem setHeadParameter_well (bound : Nat) (c : List LNode) (p : Parameter)
    (hc : ChainWell bound c) : ChainWell bound (setHeadParameter c p) := by
  unfold setHeadParameter
  cases c with
  | nil => exact hc
  | cons x rest =>
      cases x with
      | mk tok k pv v pa pt ty args =>
          intro nd hnd
          rcases List.mem_cons.mp hnd with hnd | hnd
          · have hx := hc _ (List.mem_cons_self _ _)
            cases hx with
            | intro _ _ _ _ _ _ _ _ h1 h2 h3 =>
                rw [hnd]
                exact WellNode.intro _ _ _ _ _ _ _ _ h1 h2 h3
          · exact hc nd (List.mem_cons_of_mem _ hnd)

theorem resolveGeneric_well (sys : System) (bound : Nat) (v : Value)
    (tok : String) (args : List (List LNode)) (t : Nat) (args2 : List (List LNode))
    (hb : ∀ i, sys.findType v.type = some i → i < bound)
    (hargs : ∀ c ∈ args, ChainWell bound c)
    (h : sys.resolveGeneric v tok args = .ok (t, args2)) :
    t < bound ∧ ∀ c ∈ args2, ChainWell bound c := by
  unfold System.resolveGeneric at h
  cases hgt : v.getType sys args with
  | none =>
      simp only [hgt] at h
      exact absurd h (fun hh => Except.noConfusion hh)
  | some t2 =>
      simp only [hgt] at h
      cases hmm : args.mapM (fun c =>
          if headParamGeneric c then sys.convertToExpected c [t2] else pure c) with
      | error e =>
          simp only [hmm] at h
          exact absurd h (fun hh => Except.noConfusion hh)
      | ok r =>
          simp only [hmm] at h
          have hpair := Except.ok.inj h
          have ht2 : t2 = t := congrArg Prod.fst hpair
          have hr : r = args2 := congrArg Prod.snd hpair
          subst ht2
          subst hr
          have htb : t2 < bound := by
            unfold Value.getType at hgt
            by_cases hg : v.generic
            · rw [hg] at hgt
              simp only [Bool.not_true, Bool.false_eq_true, if_false] at hgt
              have hmem := getBaseType_mem sys _ _ hgt
              obtain ⟨c, hcm, hd, hhd, hty⟩ := genericArgTypes_mem _ _ hmem
              have hdm : hd ∈ c := by
                cases c with
                | nil => simp at hhd
                | cons a l =>
                    have : a = hd := by
                      simp only [List.head?] at hhd
                      injection hhd
                    rw [← this]
                    exact List.mem_cons_self _ _
              obtain ⟨x, hx1, hx2⟩ := (hargs c hcm hd hdm).ty_bound
              rw [hty] at hx1
              have : t2 = x := by injection hx1
              omega
            · have hg2 : v.generic = false := by
                cases hgv : v.generic
                · rfl
                · exact absurd hgv hg
              rw [hg2] at hgt
              simp only [Bool.not_false, if_true] at hgt
              exact hb t2 hgt
          refine ⟨htb, ?_⟩
          intro c2 hc2
          obtain ⟨c, hcm, hgc⟩ := mapM_except_ok_mem _ _ _ hmm c2 hc2
          by_cases hpg : headParamGeneric c
          · rw [if_pos hpg] at hgc
            exact convertToExpected_well sys bound c [t2] c2 (hargs c hcm)
              (by intro e he; rw [List.mem_singleton] at he; omega) hgc
          · rw [if_neg hpg] at hgc
            have : c = c2 := Except.ok.inj hgc
            rw [← this]
            exact hargs c hcm

theorem tyAt_mem (sys : System) (i : Nat) (h : i < sys.types.length) :
    sys.tyAt i ∈ sys.types := by
  unfold System.tyAt
  rw [List.getD_eq_getElem?_getD, List.getElem?_eq_getElem h]
  exact List.getElem_mem h

theorem linkFinish_well (sys : System) (expected : List Nat) (walked r : List LNode)
    (hw : ChainWell sys.types.length walked)
    (hexp : ∀ e ∈ expected, e < sys.types.length)
    (h : sys.linkFinish expected walked = .ok r) : ChainWell sys.types.length r := by
  unfold System.linkFinish at h
  cases hcv : sys.convertToExpected walked expected with
  | error e =>
      simp only [hcv] at h
      exact absurd h (fun hh => Except.noConfusion hh)
  | ok walked2 =>
      simp only [hcv] at h
      have hw2 : ChainWell sys.types.length walked2 :=
        convertToExpected_well sys _ walked expected walked2 hw hexp hcv
      cases hl : walked2.getLast? with
      | none =>
          simp only [hl] at h
          have : walked2 = r := Except.ok.inj h
          rw [← this]
          exact hw2
      | some last =>
          simp only [hl] at h
          by_cases hcond : (!expected.isEmpty && !typeOneOf sys last expected) = true
          · rw [if_pos hcond] at h
            cases hty : last.ty with
            | none =>
                simp only [hty] at h
                exact absurd h (fun hh => Except.noConfusion hh)
            | some t =>
                simp only [hty] at h
                exact absurd h (fun hh => Except.noConfusion hh)
          · rw [if_neg hcond] at h
            have : walked2 = r := Except.ok.inj h
            rw [← this]
            exact hw2

theorem setConstant_ok_some (sys : System) (tryTypes : List Nat) (tok : String)
    (required : Bool) (p : Nat × GoVal)
    (h : sys.setConstant tryTypes tok required = .ok (some p)) :
    sys.firstParse tryTypes tok = some p := by
  unfold System.setConstant at h
  cases hfp : sys.firstParse tryTypes tok with
  | none =>
      simp only [hfp] at h
      by_cases hreq : required = true
      · rw [if_pos hreq] at h
        exact absurd h (fun hh => Except.noConfusion hh)
      · rw [if_neg hreq] at h
        have := Except.ok.inj h
        exact absurd this (fun hh => Option.noConfusion hh)
  | some q =>
      simp only [hfp] at h
      have := Except.ok.inj h
      rw [Option.some.inj this]

theorem setConstant_required_ne_none (sys : System) (tryTypes : List Nat)
    (tok : String) (h : sys.setConstant tryTypes tok true = .ok none) : False := by
  unfold System.setConstant at h
  cases hfp : sys.firstParse tryTypes tok with
  | none =>
      simp only [hfp] at h
      rw [if_pos trivial] at h
      exact Except.noConfusion h
  | some q =>
      simp only [hfp] at h
      have := Except.ok.inj h
      exact Option.noConfusion this


theorem exceptBind_ok {ε α β : Type} (a : α) (f : α → Except ε β) :
    (Except.ok a >>= f) = f a := rfl

theorem walk_fallback_aux (sys : System) (f : Nat)
    (ihW : ∀ (expected : List Nat) (root : Nat) (isFirst : Bool) (parentTy : Nat)
        (chain : List PNode) (r : List LNode),
      root < sys.types.length → parentTy < sys.types.length →
      (∀ e ∈ expected, e < sys.types.length) →
      (linkPack sys f).2.1 expected root isFirst parentTy chain = .ok r →
      ChainWell sys.types.length r)
    (expected : List Nat) (root : Nat) (isFirst : Bool) (parentTy : Nat)
    (tok : String) (konst : Bool) (argsL : List (List LNode)) (rest : List PNode)
    (r : List LNode)
    (hroot : root < sys.types.length)
    (hexp : ∀ e ∈ expected, e < sys.types.length)
    (h : (if rest.isEmpty && !expected.isEmpty then
            match sys.setConstant expected tok true with
            | .error m => .error (.perr m)
            | .ok (some (t, pv)) =>
                .ok [LNode.mk tok true (some pv) none none (some parentTy)
                  (some t) argsL]
            | .ok none =>
                .ok [LNode.mk tok konst none none none (some parentTy) none argsL]
          else if isFirst then
            match sys.setConstant sys.parseOrderIdx tok false with
            | .error m => .error (.perr m)
            | .ok none => .error (.perr ("type could not be determined for " ++ tok))
            | .ok (some (t, pv)) => do
                let rest2 ← (linkPack sys f).2.1 expected root false t rest
                .ok (LNode.mk tok true (some pv) none none (some parentTy)
                  (some t) argsL :: rest2)
          else .error (.perr ("invalid value " ++ tok)) :
            Except LinkFailure (List LNode)) = .ok r) :
    ChainWell sys.types.length r := by
  by_cases hc1 : (rest.isEmpty && !expected.isEmpty) = true
  · rw [if_pos hc1] at h
    cases hsc : sys.setConstant expected tok true with
    | error m =>
        simp only [hsc] at h
        exact absurd h (fun hh => Except.noConfusion hh)
    | ok o =>
        cases o with
        | none => exact (setConstant_required_ne_none sys expected tok hsc).elim
        | some p =>
            cases p with
            | mk t pv =>
                simp only [hsc] at h
                have hr := Except.ok.inj h
                rw [← hr]
                intro nd hnd
                rw [List.mem_singleton] at hnd
                rw [hnd]
                refine WellNode.intro _ _ _ _ _ _ _ _ ⟨t, rfl, ?_⟩
                  (fun hk => absurd hk (fun hh => Bool.noConfusion hh))
                  (fun hv => absurd hv (fun hh => Bool.noConfusion hh))
                exact hexp t (firstParse_mem sys expected tok t pv
                  (setConstant_ok_some sys expected tok true (t, pv) hsc))
  · rw [if_neg hc1] at h
    cases isFirst with
    | false =>
        rw [if_neg (fun hh => Bool.noConfusion hh)] at h
        exact absurd h (fun hh => Except.noConfusion hh)
    | true =>
        rw [if_pos rfl] at h
        cases hsc : sys.setConstant sys.parseOrderIdx tok false with
        | error m =>
            simp only [hsc] at h
            exact absurd h (fun hh => Except.noConfusion hh)
        | ok o =>
            cases o with
            | none =>
                simp only [hsc] at h
                exact absurd h (fun hh => Except.noConfusion hh)
            | some p =>
                cases p with
                | mk t pv =>
                    simp only [hsc] at h
                    cases hw2 : (linkPack sys f).2.1 expected root false t rest with
                    | error e =>
                        simp only [hw2] at h
                        exact absurd h (fun hh => Except.noConfusion hh)
                    | ok rest2 =>
                        simp only [hw2, exceptBind_ok] at h
                        have ht : t < sys.types.length :=
                          mem_parseOrderIdx_lt sys t (firstParse_mem sys
                            sys.parseOrderIdx tok t pv (setConstant_ok_some sys
                              sys.parseOrderIdx tok false (t, pv) hsc))
                        have hr := Except.ok.inj h
                        rw [← hr]
                        intro nd hnd
                        rcases List.mem_cons.mp hnd with hnd | hnd
                        · rw [hnd]
                          refine WellNode.intro _ _ _ _ _ _ _ _ ⟨t, rfl, ht⟩
                            (fun hk => absurd hk (fun hh => Bool.noConfusion hh))
                            (fun hv => absurd hv (fun hh => Bool.noConfusion hh))
                        · exact ihW expected root false t rest rest2 hroot ht hexp hw2 nd hnd

set_option maxHeartbeats 1000000 in
theorem linkPack_well (sys : System) (hval : validValueTypes sys) : ∀ fuel : Nat,
    (∀ (chain : List PNode) (expected : List Nat) (root : Nat) (r : List LNode),
      root < sys.types.length → (∀ e ∈ expected, e < sys.types.length) →
      (linkPack sys fuel).1 chain expected root = .ok r →
      ChainWell sys.types.length r) ∧
    (∀ (expected : List Nat) (root : Nat) (isFirst : Bool) (parentTy : Nat)
        (chain : List PNode) (r : List LNode),
      root < sys.types.length → parentTy < sys.types.length →
      (∀ e ∈ expected, e < sys.types.length) →
      (linkPack sys fuel).2.1 expected root isFirst parentTy chain = .ok r →
      ChainWell sys.types.length r) ∧
    (∀ (root : Nat) (token parentName : String) (v : Value)
        (argsRaw : List (List PNode)) (rs : List (List LNode)),
      root < sys.types.length →
      (linkPack sys fuel).2.2.1 root token parentName v argsRaw = .ok rs →
      ∀ c ∈ rs, ChainWell sys.types.length c) ∧
    (∀ (root : Nat) (v : Value) (i : Nat) (argsRaw : List (List PNode))
        (rs : List (List LNode)),
      root < sys.types.length →
      (linkPack sys fuel).2.2.2.1 root v i argsRaw = .ok rs →
      ∀ c ∈ rs, ChainWell sys.types.length c) ∧
    (∀ (v : Value) (i : Nat) (rs : List (List LNode)),
      (linkPack sys fuel).2.2.2.2 v i = .ok rs →
      ∀ c ∈ rs, ChainWell sys.types.length c) := by
  intro fuel
  induction fuel with
  | zero =>
      refine ⟨?_, ?_, ?_, ?_, ?_⟩
      · intro chain expected root r _ _ h
        simp only [linkPack] at h
        exact absurd h (fun hh => Except.noConfusion hh)
      · intro expected root isFirst parentTy chain r _ _ _ h
        simp only [linkPack] at h
        exact absurd h (fun hh => Except.noConfusion hh)
      · intro root token parentName v argsRaw rs _ h
        simp only [linkPack] at h
        exact absurd h (fun hh => Except.noConfusion hh)
      · intro root v i argsRaw rs _ h
        simp only [linkPack] at h
        exact absurd h (fun hh => Except.noConfusion hh)
      · intro v i rs h
        simp only [linkPack] at h
        exact absurd h (fun hh => Except.noConfusion hh)
  | succ f ih =>
      obtain ⟨ihL, ihW, ihA, ihAL, ihD⟩ := ih
      refine ⟨?_, ?_, ?_, ?_, ?_⟩
      · -- `link` itself: walk from the root, then `linkFinish`.
        intro chain expected root r hroot hexp h
        simp only [linkPack] at h
        cases hw : (linkPack sys f).2.1 expected root true root chain with
        | error e =>
            simp only [hw] at h
            exact absurd h (fun hh => Except.noConfusion hh)
        | ok walked =>
            simp only [hw, exceptBind_ok] at h
            exact linkFinish_well sys expected walked r
              (ihW expected root true root chain walked hroot hroot hexp hw) hexp h
      · -- the node loop of `link`.
        intro expected root isFirst parentTy chain r hroot hpt hexp h
        cases chain with
        | nil =>
            simp only [linkPack] at h
            have : ([] : List LNode) = r := Except.ok.inj h
            rw [← this]
            intro nd hnd
            simp at hnd
        | cons node rest =>
            cases node with
            | mk tok konst args =>
                cases konst with
                | false =>
                    cases hlk : (sys.tyAt parentTy).value tok with
                    | some v =>
                        simp only [linkPack, PNode.token, PNode.constant, PNode.args,
                          hlk] at h
                        cases hargs1 : (linkPack sys f).2.2.1 root tok
                            (sys.nameAt parentTy) v args with
                        | error e =>
                            simp only [hargs1] at h
                            exact absurd h (fun hh => Except.noConfusion hh)
                        | ok args1 =>
                            simp only [hargs1, exceptBind_ok] at h
                            have hargs1w : ∀ c ∈ args1, ChainWell sys.types.length c :=
                              ihA root tok (sys.nameAt parentTy) v args args1 hroot hargs1
                            cases hg : v.generic with
                            | true =>
                                rw [hg, if_pos rfl] at h
                                cases hrg : sys.resolveGeneric v tok args1 with
                                | error e =>
                                    simp only [hrg] at h
                                    exact absurd h (fun hh => Except.noConfusion hh)
                                | ok p =>
                                    cases p with
                                    | mk t args2 =>
                                        simp only [hrg] at h
                                        obtain ⟨ht, hargs2w⟩ := resolveGeneric_well sys
                                          sys.types.length v tok args1 t args2
                                          (fun i hi => findType_lt sys v.type i hi)
                                          hargs1w hrg
                                        cases hw2 : (linkPack sys f).2.1 expected root
                                            false t rest with
                                        | error e =>
                                            simp only [hw2] at h
                                            exact absurd h (fun hh => Except.noConfusion hh)
                                        | ok rest2 =>
                                            simp only [hw2, exceptBind_ok] at h
                                            have hr := Except.ok.inj h
                                            rw [← hr]
                                            intro nd hnd
                                            rcases List.mem_cons.mp hnd with hnd | hnd
                                            · rw [hnd]
                                              refine WellNode.intro _ _ _ _ _ _ _ _
                                                ⟨t, rfl, ht⟩ (fun _ => rfl)
                                                (fun _ => hargs2w)
                                            · exact ihW expected root false t rest rest2
                                                hroot ht hexp hw2 nd hnd
                            | false =>
                                rw [hg, if_neg (fun hh => Bool.noConfusion hh)] at h
                                cases hft : sys.findType v.type with
                                | some t =>
                                    simp only [hft] at h
                                    cases hw2 : (linkPack sys f).2.1 expected root
                                        false t rest with
                                    | error e =>
                                        simp only [hw2] at h
                                        exact absurd h (fun hh => Except.noConfusion hh)
                                    | ok rest2 =>
                                        simp only [hw2, exceptBind_ok] at h
                                        have ht : t < sys.types.length :=
                                          findType_lt sys v.type t hft
                                        have hr := Except.ok.inj h
                                        rw [← hr]
                                        intro nd hnd
                                        rcases List.mem_cons.mp hnd with hnd | hnd
                                        · rw [hnd]
                                          refine WellNode.intro _ _ _ _ _ _ _ _
                                            ⟨t, rfl, ht⟩ (fun _ => rfl)
                                            (fun _ => hargs1w)
                                        · exact ihW expected root false t rest rest2
                                            hroot ht hexp hw2 nd hnd
                                | none =>
                                    have hvm : v ∈ (sys.tyAt parentTy).values :=
                                      value_mem (sys.tyAt parentTy) tok v hlk
                                    have := hval (sys.tyAt parentTy)
                                      (tyAt_mem sys parentTy hpt) v hvm hg
                                    rw [hft] at this
                                    simp at this
                    | none =>
                        simp only [linkPack, PNode.token, PNode.constant, PNode.args,
                          hlk] at h
                        exact walk_fallback_aux sys f ihW expected root isFirst
                          parentTy tok false (args.map (rawToLF f)) rest r hroot hexp h
                | true =>
                    cases hlk : (sys.tyAt parentTy).value tok with
                    | some v =>
                        simp only [linkPack, PNode.token, PNode.constant, PNode.args,
                          hlk] at h
                        exact walk_fallback_aux sys f ihW expected root isFirst
                          parentTy tok true (args.map (rawToLF f)) rest r hroot hexp h
                    | none =>
                        simp only [linkPack, PNode.token, PNode.constant, PNode.args,
                          hlk] at h
                        exact walk_fallback_aux sys f ihW expected root isFirst
                          parentTy tok true (args.map (rawToLF f)) rest r hroot hexp h
      · -- `linkArguments`: arity window, then both loops.
        intro root token parentName v argsRaw rs hroot h
        simp only [linkPack] at h
        by_cases h1 : argsRaw.length < v.minParameters
        · rw [if_pos h1] at h
          exact absurd h (fun hh => Except.noConfusion hh)
        · rw [if_neg h1] at h
          by_cases h2 : argsRaw.length > v.maxParameters
          · rw [if_pos h2] at h
            exact absurd h (fun hh => Except.noConfusion hh)
          · rw [if_neg h2] at h
            cases hsup : (linkPack sys f).2.2.2.1 root v 0 argsRaw with
            | error e =>
                simp only [hsup] at h
                exact absurd h (fun hh => Except.noConfusion hh)
            | ok supplied =>
                simp only [hsup, exceptBind_ok] at h
                cases hdef : (linkPack sys f).2.2.2.2 v argsRaw.length with
                | error e =>
                    simp only [hdef] at h
                    exact absurd h (fun hh => Except.noConfusion hh)
                | ok defaulted =>
                    simp only [hdef, exceptBind_ok] at h
                    have hr := Except.ok.inj h
                    rw [← hr]
                    intro c hc
                    rcases List.mem_append.mp hc with hc | hc
                    · exact ihAL root v 0 argsRaw supplied hroot hsup c hc
                    · exact ihD v argsRaw.length defaulted hdef c hc
      · -- the supplied-argument loop.
        intro root v i argsRaw rs hroot h
        cases argsRaw with
        | nil =>
            simp only [linkPack] at h
            have : ([] : List (List LNode)) = rs := Except.ok.inj h
            rw [← this]
            intro c hc
            simp at hc
        | cons c cs =>
            simp only [linkPack] at h
            cases hp : v.parameter i with
            | none =>
                simp only [hp] at h
                exact absurd h (fun hh => Except.noConfusion hh)
            | some param =>
                simp only [hp] at h
                cases hlc : (linkPack sys f).1 c [] root with
                | error e =>
                    simp only [hlc] at h
                    exact absurd h (fun hh => Except.noConfusion hh)
                | ok lc =>
                    simp only [hlc, exceptBind_ok] at h
                    cases hrest : (linkPack sys f).2.2.2.1 root v (i + 1) cs with
                    | error e =>
                        simp only [hrest] at h
                        exact absurd h (fun hh => Except.noConfusion hh)
                    | ok rest =>
                        simp only [hrest, exceptBind_ok] at h
                        have hr := Except.ok.inj h
                        rw [← hr]
                        intro c2 hc2
                        rcases List.mem_cons.mp hc2 with hc2 | hc2
                        · rw [hc2]
                          exact setHeadParameter_well sys.types.length lc param
                            (ihL c [] root lc hroot (by intro e he; simp at he) hlc)
                        · exact ihAL root v (i + 1) cs rest hroot hrest c2 hc2
      · -- the default-filling loop.
        intro v i rs h
        simp only [linkPack] at h
        by_cases hi : i < v.parameters.length
        · rw [if_pos hi] at h
          cases hp : v.parameter i with
          | none =>
              simp only [hp] at h
              exact absurd h (fun hh => Except.noConfusion hh)
          | some param =>
              simp only [hp] at h
              cases hd : param.default with
              | none =>
                  simp only [hd] at h
                  exact absurd h (fun hh => Except.noConfusion hh)
              | some d =>
                  simp only [hd] at h
                  exact absurd h (fun hh => Except.noConfusion hh)
        · rw [if_neg hi] at h
          have : ([] : List (List LNode)) = rs := Except.ok.inj h
          rw [← this]
          intro c hc
          simp at hc

theorem resolveExpectedTypes_lt (sys : System) :
    ∀ (ns : List String) (expected : List Nat),
      resolveExpectedTypes sys ns = .ok expected →
      ∀ e ∈ expected, e < sys.types.length
  | [], expected, h => by
      have : ([] : List Nat) = expected := Except.ok.inj h
      rw [← this]
      intro e he
      simp at he
  | n :: ns, expected, h => by
      simp only [resolveExpectedTypes] at h
      cases hf : sys.findType n with
      | none =>
          simp only [hf] at h
          exact absurd h (fun hh => Except.noConfusion hh)
      | some i =>
          simp only [hf] at h
          cases hrest : resolveExpectedTypes sys ns with
          | error m =>
              simp only [hrest] at h
              exact absurd h (fun hh => Except.noConfusion hh)
          | ok rest =>
              simp only [hrest, exceptBind_ok] at h
              have : i :: rest = expected := Except.ok.inj h
              rw [← this]
              intro e he
              rcases List.mem_cons.mp he with he | he
              · rw [he]
                exact findType_lt sys n i hf
              · exact resolveExpectedTypes_lt sys ns rest hrest e he

/-- Claim C10 (amended): whenever `Parse` returns a linked chain, every
node of that chain and, recursively, of the argument sub-chains of
value-carrying nodes (including synthesized conversion nodes; the
default-argument synthesis is dead code, see claim C1) has a non-nil
`Type`, and every such node that is not a constant has a non-nil `Value`
— provided every non-generic value of the system has a resolvable type
(which `NewSystem` validates).  Argument chains hanging off a *constant*
node are exempt: the linker never visits them (see the `x(a)`
counterexample, where the argument node `a` keeps a nil `Type`). -/
theorem c10_amended (sys : System) (opts : Options) (res : ParseResult)
    (chain : List LNode) (hval : validValueTypes sys)
    (hp : sys.parse opts = .ok res) (_herr : res.err = none)
    (hlinked : res.linked = some chain) :
    ChainWell sys.types.length chain := by
  simp only [System.parse] at hp
  by_cases h1 : sys.types.isEmpty = true
  · rw [if_pos h1] at hp
    have hres := Except.ok.inj hp
    rw [← hres] at hlinked
    exact absurd hlinked (fun hh => Option.noConfusion hh)
  · rw [if_neg h1] at hp
    by_cases h2 : opts.expression.isEmpty = true
    · rw [if_pos h2] at hp
      have hres := Except.ok.inj hp
      rw [← hres] at hlinked
      exact absurd hlinked (fun hh => Option.noConfusion hh)
    · rw [if_neg h2] at hp
      by_cases h3 : opts.rootType = ""
      · rw [if_pos h3] at hp
        have hres := Except.ok.inj hp
        rw [← hres] at hlinked
        exact absurd hlinked (fun hh => Option.noConfusion hh)
      · rw [if_neg h3] at hp
        cases hr : sys.findType opts.rootType with
        | none =>
            simp only [hr] at hp
            have hres := Except.ok.inj hp
            rw [← hres] at hlinked
            exact absurd hlinked (fun hh => Option.noConfusion hh)
        | some root =>
            simp only [hr] at hp
            have hroot : root < sys.types.length := findType_lt sys opts.rootType root hr
            cases hrx : resolveExpectedTypes sys opts.expectedTypes with
            | error m =>
                simp only [hrx] at hp
                have hres := Except.ok.inj hp
                rw [← hres] at hlinked
                exact absurd hlinked (fun hh => Option.noConfusion hh)
            | ok expected =>
                simp only [hrx] at hp
                have hexp : ∀ e ∈ expected, e < sys.types.length :=
                  resolveExpectedTypes_lt sys opts.expectedTypes expected hrx
                cases hpr : parseRun opts.expression with
                | error m =>
                    simp only [hpr] at hp
                    exact absurd hp (fun hh => Except.noConfusion hh)
                | ok stp =>
                    cases stp with
                    | mk st perrMsg =>
                        simp only [hpr] at hp
                        cases hfst : st.first with
                        | none =>
                            simp only [hfst] at hp
                            cases hlink : sys.link ((8 * st.nodes.size + 8) *
                                (sys.totalParams + 2)) [] expected root with
                            | error e =>
                                cases e with
                                | crash m =>
                                    simp only [hlink] at hp
                                    exact absurd hp (fun hh => Except.noConfusion hh)
                                | perr m =>
                                    simp only [hlink] at hp
                                    have hres := Except.ok.inj hp
                                    rw [← hres] at hlinked
                                    exact absurd hlinked (fun hh => Option.noConfusion hh)
                            | ok chain2 =>
                                simp only [hlink] at hp
                                have hres := Except.ok.inj hp
                                rw [← hres] at hlinked
                                have hch : chain2 = chain := Option.some.inj hlinked
                                rw [← hch]
                                exact (linkPack_well sys hval ((8 * st.nodes.size + 8) *
                                  (sys.totalParams + 2))).1 [] expected root chain2
                                  hroot hexp hlink
                        | some id =>
                            simp only [hfst] at hp
                            cases hlink : sys.link ((8 * st.nodes.size + 8) *
                                (sys.totalParams + 2))
                                (arenaChain st.nodes (st.nodes.size + 1) id)
                                expected root with
                            | error e =>
                                cases e with
                                | crash m =>
                                    simp only [hlink] at hp
                                    exact absurd hp (fun hh => Except.noConfusion hh)
                                | perr m =>
                                    simp only [hlink] at hp
                                    have hres := Except.ok.inj hp
                                    rw [← hres] at hlinked
                                    exact absurd hlinked (fun hh => Option.noConfusion hh)
                            | ok chain2 =>
                                simp only [hlink] at hp
                                have hres := Except.ok.inj hp
                                rw [← hres] at hlinked
                                have hch : chain2 = chain := Option.some.inj hlinked
                                rw [← hch]
                                exact (linkPack_well sys hval ((8 * st.nodes.size + 8) *
                                  (sys.totalParams + 2))).1
                                  (arenaChain st.nodes (st.nodes.size + 1) id)
                                  expected root chain2 hroot hexp hlink

/-- Witness for the C10 amended theorem: the linked chain `Parse` returns
for `x(a)` against expected type `text` satisfies the invariant (its only
top-level node is a bounded-type constant; the unlinked argument `a` is
exempt because the head carries no `Value`). -/
theorem c10_amended_witness :
    ChainWell c10Sys.types.length
      [LNode.mk "x" true (some (.str "x")) none none (some 0) (some 1)
        [[LNode.mk "a" false none none none none none []]]] :=
  c10_amended c10Sys c10Opts
    { err := none, first := some 0,
      raw := [PNode.mk "x" false [[PNode.mk "a" false []]]],
      linked := some [LNode.mk "x" true (some (.str "x")) none none (some 0)
        (some 1) [[LNode.mk "a" false none none none none none []]]] }
    [LNode.mk "x" true (some (.str "x")) none none (some 0) (some 1)
      [[LNode.mk "a" false none none none none none []]]]
    (by
      intro t ht v hv hg
      simp only [c10Sys, textTy, List.mem_cons, List.not_mem_nil, or_false] at ht
      rcases ht with ht | ht
      · rw [ht] at hv
        simp at hv
      · rw [ht] at hv
        simp at hv)
    rfl rfl rfl

/-- Claim C8 counterexample: in `f(x.)` the `.` is immediately followed by
the structural character `)` (and the `)` by end-of-input) with no token
produced where a value was expected, yet the parser synthesizes no
placeholder node (`emptyAdded` stays false) and reports no error:
`nextChars` is `"(,."`, so a position is only "expecting a value" after
`(`, `,` or `.`, and the check runs only against the character before the
final parser position, never at interior positions. -/
theorem c8_counterexample :
    (parseRun "f(x.)".toList).map (fun p => (p.1.emptyAdded, p.1.i, p.2)) =
      .ok (false, 5, none) := by
  rfl

theorem nextChars_stop (c : Char) (h : stopChars c = false) : nextChars c = false := by
  unfold stopChars nextChars charsToMap at *
  simp only [String.toList] at h ⊢
  simp only [List.contains, List.elem_eq_mem, List.mem_cons, List.not_mem_nil,
    or_false, decide_eq_true_eq, decide_eq_false_iff_not] at *
  intro hc
  rcases hc with hc | hc | hc <;> subst hc <;> simp at h ⊢

theorem newExpr_state (st : PState) (nd : RawNode) (st2 : PState) (id : Nat)
    (h : newExpr st nd = .ok (st2, id)) :
    st2.i = st.i ∧ st2.parents = st.parents ∧ st2.emptyAdded = st.emptyAdded := by
  unfold newExpr at h
  cases hp : st.prev with
  | some p =>
      simp only [hp] at h
      have h1 := Except.ok.inj h
      rw [Prod.mk.injEq] at h1
      obtain ⟨h2, h3⟩ := h1
      subst h2
      exact ⟨rfl, rfl, rfl⟩
  | none =>
      simp only [hp] at h
      cases hps : st.parents with
      | nil =>
          simp only [hps] at h
          have h1 := Except.ok.inj h
          rw [Prod.mk.injEq] at h1
          obtain ⟨h2, h3⟩ := h1
          subst h2
          exact ⟨rfl, rfl, rfl⟩
      | cons o ps =>
          cases o with
          | none =>
              simp only [hps] at h
              exact absurd h (fun hh => Except.noConfusion hh)
          | some pid =>
              simp only [hps] at h
              have h1 := Except.ok.inj h
              rw [Prod.mk.injEq] at h1
              obtain ⟨h2, h3⟩ := h1
              subst h2
              exact ⟨rfl, rfl, rfl⟩

theorem constLoop_done (e : List Char) (endq : Char) (start : Pos) :
    ∀ (f i : Nat) (esc : Bool) (out : String) (res : ConstOut),
      i < e.length → constLoop e endq start f i esc out = .ok res →
      ∃ i3 tok, res = .done i3 tok ∧ 0 < i3 ∧ i3 ≤ e.length ∧
        e.get? (i3 - 1) = some endq
  | 0, i, esc, out, res, hi, h => by
      simp only [constLoop] at h
      exact absurd h (fun hh => Except.noConfusion hh)
  | f + 1, i, esc, out, res, hi, h => by
      simp only [constLoop] at h
      rw [if_pos hi] at h
      cases hg : e.get? (i + 1) with
      | none =>
          simp only [hg] at h
          exact absurd h (fun hh => Except.noConfusion hh)
      | some b =>
          simp only [hg] at h
          have hlt : i + 1 < e.length := by
            by_contra hge
            rw [List.get?_eq_none.mpr (by omega)] at hg
            exact Option.noConfusion hg
          by_cases hb1 : (b == '\\' && !esc) = true
          · rw [if_pos hb1] at h
            exact constLoop_done e endq start f (i + 1) true out res hlt h
          · rw [if_neg hb1] at h
            by_cases hb2 : (b == endq && !esc) = true
            · rw [if_pos hb2] at h
              have hres := Except.ok.inj h
              have hb2' := hb2
              rw [Bool.and_eq_true] at hb2'
              have hbe : b = endq := eq_of_beq hb2'.1
              refine ⟨i + 1 + 1, out, hres.symm, by omega, by omega, ?_⟩
              rw [show i + 1 + 1 - 1 = i + 1 by omega]
              rw [hbe] at hg
              exact hg
            · rw [if_neg hb2] at h
              exact constLoop_done e endq start f (i + 1) false _ res hlt h

theorem parseConstantGo_spec (e : List Char) (st : PState) (endq : Char)
    (st2 : PState) (ex : Option Nat) (er : Option String)
    (hg : e.get? st.i = some endq)
    (h : parseConstantGo e st = .ok (st2, ex, er)) :
    er = none ∧ st2.i ≤ e.length ∧ 0 < st2.i ∧
      e.get? (st2.i - 1) = some endq ∧
      st2.parents = st.parents ∧ st2.emptyAdded = st.emptyAdded := by
  have hi : st.i < e.length := by
    by_contra hge
    rw [List.get?_eq_none.mpr (by omega)] at hg
    exact Option.noConfusion hg
  unfold parseConstantGo at h
  simp only [hg] at h
  cases hcl : constLoop e endq st.pos (e.length + 1) st.i false "" with
  | error m =>
      simp only [hcl] at h
      exact absurd h (fun hh => Except.noConfusion hh)
  | ok res =>
      cases res with
      | unterminated msg j =>
          obtain ⟨i3, tok, heq, _⟩ :=
            constLoop_done e endq st.pos (e.length + 1) st.i false "" _ hi hcl
          exact absurd heq (fun hh => ConstOut.noConfusion hh)
      | done i3 tok =>
          obtain ⟨i3', tok', heq, hpos, hle, hq⟩ :=
            constLoop_done e endq st.pos (e.length + 1) st.i false "" _ hi hcl
          have hi3 : i3 = i3' := by injection heq
          subst hi3
          simp only [hcl] at h
          split at h
          · exact absurd h (fun hh => Except.noConfusion hh)
          · rename_i st3 id hne
            have h1 := Except.ok.inj h
            rw [Prod.mk.injEq] at h1
            obtain ⟨h2, h3⟩ := h1
            rw [Prod.mk.injEq] at h3
            obtain ⟨h4, h5⟩ := h3
            obtain ⟨hni, hnp, hne2⟩ := newExpr_state _ _ _ _ hne
            subst h2
            refine ⟨h5.symm, ?_, ?_, ?_, ?_, ?_⟩
            · rw [hni]; exact hle
            · rw [hni]; exact hpos
            · rw [hni]; exact hq
            · rw [hnp]
            · rw [hne2]

theorem tokLoop_spec (e : List Char) (word : Bool) :
    ∀ (f i : Nat) (out : String) (i2 : Nat) (out2 : String),
      i ≤ e.length → tokLoop e word f i out = (i2, out2) →
      i ≤ i2 ∧ i2 ≤ e.length ∧
        (∀ j, i ≤ j → j < i2 → ∀ c, e.get? j = some c → stopChars c = false)
  | 0, i, out, i2, out2, hi, h => by
      simp only [tokLoop] at h
      rw [Prod.mk.injEq] at h
      obtain ⟨h1, _⟩ := h
      subst h1
      exact ⟨le_refl _, hi, fun j hj1 hj2 c hc => absurd hj2 (by omega)⟩
  | f + 1, i, out, i2, out2, hi, h => by
      simp only [tokLoop] at h
      by_cases hlt : i < e.length
      · rw [if_pos hlt] at h
        cases hg : e.get? i with
        | none =>
            simp only [hg] at h
            rw [Prod.mk.injEq] at h
            obtain ⟨h1, _⟩ := h
            subst h1
            exact ⟨le_refl _, hi, fun j hj1 hj2 c hc => absurd hj2 (by omega)⟩
        | some b =>
            simp only [hg] at h
            by_cases hstop : (stopChars b || (word && !wordChars b)) = true
            · rw [if_pos hstop] at h
              rw [Prod.mk.injEq] at h
              obtain ⟨h1, _⟩ := h
              subst h1
              exact ⟨le_refl _, hi, fun j hj1 hj2 c hc => absurd hj2 (by omega)⟩
            · rw [if_neg hstop] at h
              have hsb : stopChars b = false := by
                cases hs : stopChars b
                · rfl
                · exact absurd (show (stopChars b ||
                    (word && !wordChars b)) = true by rw [hs]; simp) hstop
              obtain ⟨ha, hb, hc⟩ :=
                tokLoop_spec e word f (i + 1) (out.push b) i2 out2 (by omega) h
              refine ⟨by omega, hb, ?_⟩
              intro j hj1 hj2 c hcj
              by_cases hji : j = i
              · subst hji
                rw [hg] at hcj
                have : b = c := Option.some.inj hcj
                rw [← this]
                exact hsb
              · exact hc j (by omega) hj2 c hcj
      · rw [if_neg hlt] at h
        rw [Prod.mk.injEq] at h
        obtain ⟨h1, _⟩ := h
        subst h1
        exact ⟨le_refl _, hi, fun j hj1 hj2 c hc => absurd hj2 (by omega)⟩

theorem parseTokenGo_spec (e : List Char) (st : PState) (b0 : Char)
    (st2 : PState) (id : Nat)
    (hg : e.get? st.i = some b0) (hsb : stopChars b0 = false)
    (h : parseTokenGo e st = .ok (st2, id)) :
    st2.i ≤ e.length ∧ st.i < st2.i ∧
      (∀ c, e.get? (st2.i - 1) = some c → stopChars c = false) ∧
      st2.parents = st.parents ∧ st2.emptyAdded = st.emptyAdded := by
  have hi : st.i < e.length := by
    by_contra hge
    rw [List.get?_eq_none.mpr (by omega)] at hg
    exact Option.noConfusion hg
  unfold parseTokenGo at h
  simp only [hg] at h
  rcases hr : tokLoop e (wordChars b0) (e.length + 1) st.i "" with ⟨i2, out2⟩
  have hstep : tokLoop e (wordChars b0) (e.length + 1) st.i "" =
      tokLoop e (wordChars b0) e.length (st.i + 1) ("".push b0) := by
    simp only [tokLoop]
    rw [if_pos hi]
    simp only [hg]
    rw [if_neg (by simp [hsb])]
  rw [hstep] at hr
  obtain ⟨ha, hb, hc⟩ :=
    tokLoop_spec e (wordChars b0) e.length (st.i + 1) ("".push b0) i2 out2
      (by omega) hr
  rw [hstep, hr] at h
  obtain ⟨hni, hnp, hne2⟩ := newExpr_state _ _ _ _ h
  have hni2 : st2.i = i2 := by simpa using hni
  have hnp2 : st2.parents = st.parents := by simpa using hnp
  have hne3 : st2.emptyAdded = st.emptyAdded := by simpa using hne2
  refine ⟨?_, ?_, ?_, ?_, ?_⟩
  · rw [hni2]; exact hb
  · rw [hni2]; omega
  · intro c hcj
    rw [hni2] at hcj
    by_cases hji : i2 - 1 = st.i
    · rw [hji] at hcj
      rw [hg] at hcj
      have : b0 = c := Option.some.inj hcj
      rw [← this]
      exact hsb
    · exact hc (i2 - 1) (by omega) (by omega) c hcj
  · exact hnp2
  · exact hne3

theorem scanLoop_spec (e : List Char) :
    ∀ (f : Nat) (st : PState) (out : ScanOut),
      st.i ≤ e.length → scanLoop e f st = .ok out →
      (∀ st2 ex er, out = .fell st2 ex er →
         st2.i ≤ e.length ∧ st2.emptyAdded = st.emptyAdded ∧ er = none ∧
           (st2.i = e.length ∨ st2.i = 0 ∨
             ∀ c, e.get? (st2.i - 1) = some c → nextChars c = false)) ∧
      (∀ st2 ex er, out = .early st2 ex er →
         st2.i ≤ e.length ∧ st2.emptyAdded = st.emptyAdded)
  | 0, st, out, hle, h => by
      simp only [scanLoop] at h
      exact absurd h (fun hh => Except.noConfusion hh)
  | f + 1, st, out, hle, h => by
      simp only [scanLoop] at h
      by_cases hlt : st.i < e.length
      · rw [if_pos hlt] at h
        cases hg : e.get? st.i with
        | none =>
            simp only [hg] at h
            exact absurd h (fun hh => Except.noConfusion hh)
        | some b =>
            simp only [hg] at h
            by_cases hb1 : (b == '\n') = true
            · rw [if_pos hb1] at h
              obtain ⟨hf, he⟩ := scanLoop_spec e f _ out (by simp; omega) h
              refine ⟨fun st2 ex er ho => ?_, fun st2 ex er ho => ?_⟩
              · obtain ⟨a1, a2, a3, a4⟩ := hf st2 ex er ho
                exact ⟨a1, by simpa using a2, a3, a4⟩
              · obtain ⟨a1, a2⟩ := he st2 ex er ho
                exact ⟨a1, by simpa using a2⟩
            · rw [if_neg hb1] at h
              by_cases hb2 : (b == ' ' || b == '\t' || b == '\r' ||
                  b == '\x0c' || b == '\x0b') = true
              · rw [if_pos hb2] at h
                obtain ⟨hf, he⟩ := scanLoop_spec e f _ out (by simp; omega) h
                refine ⟨fun st2 ex er ho => ?_, fun st2 ex er ho => ?_⟩
                · obtain ⟨a1, a2, a3, a4⟩ := hf st2 ex er ho
                  exact ⟨a1, by simpa using a2, a3, a4⟩
                · obtain ⟨a1, a2⟩ := he st2 ex er ho
                  exact ⟨a1, by simpa using a2⟩
              · rw [if_neg hb2] at h
                by_cases hb3 : (b == '(') = true
                · rw [if_pos hb3] at h
                  obtain ⟨hf, he⟩ := scanLoop_spec e f _ out (by simp; omega) h
                  refine ⟨fun st2 ex er ho => ?_, fun st2 ex er ho => ?_⟩
                  · obtain ⟨a1, a2, a3, a4⟩ := hf st2 ex er ho
                    exact ⟨a1, by simpa using a2, a3, a4⟩
                  · obtain ⟨a1, a2⟩ := he st2 ex er ho
                    exact ⟨a1, by simpa using a2⟩
                · rw [if_neg hb3] at h
                  by_cases hb4 : (b == ')') = true
                  · rw [if_pos hb4] at h
                    cases hps : st.parents with
                    | nil =>
                        simp only [hps] at h
                        have ho := Except.ok.inj h
                        refine ⟨fun st2 ex er hfo => ?_, fun st2 ex er heo => ?_⟩
                        · rw [← ho] at hfo
                          exact absurd hfo (fun hh => ScanOut.noConfusion hh)
                        · rw [← ho] at heo
                          injection heo with e1 e2 e3
                          rw [← e1]
                          exact ⟨hle, rfl⟩
                    | cons p ps =>
                        simp only [hps] at h
                        obtain ⟨hf, he⟩ := scanLoop_spec e f _ out (by simp; omega) h
                        refine ⟨fun st2 ex er ho => ?_, fun st2 ex er ho => ?_⟩
                        · obtain ⟨a1, a2, a3, a4⟩ := hf st2 ex er ho
                          exact ⟨a1, by simpa using a2, a3, a4⟩
                        · obtain ⟨a1, a2⟩ := he st2 ex er ho
                          exact ⟨a1, by simpa using a2⟩
                  · rw [if_neg hb4] at h
                    by_cases hb5 : (b == ',') = true
                    · rw [if_pos hb5] at h
                      obtain ⟨hf, he⟩ := scanLoop_spec e f _ out (by simp; omega) h
                      refine ⟨fun st2 ex er ho => ?_, fun st2 ex er ho => ?_⟩
                      · obtain ⟨a1, a2, a3, a4⟩ := hf st2 ex er ho
                        exact ⟨a1, by simpa using a2, a3, a4⟩
                      · obtain ⟨a1, a2⟩ := he st2 ex er ho
                        exact ⟨a1, by simpa using a2⟩
                    · rw [if_neg hb5] at h
                      by_cases hb6 : (b == '.') = true
                      · rw [if_pos hb6] at h
                        obtain ⟨hf, he⟩ := scanLoop_spec e f _ out (by simp; omega) h
                        refine ⟨fun st2 ex er ho => ?_, fun st2 ex er ho => ?_⟩
                        · obtain ⟨a1, a2, a3, a4⟩ := hf st2 ex er ho
                          exact ⟨a1, by simpa using a2, a3, a4⟩
                        · obtain ⟨a1, a2⟩ := he st2 ex er ho
                          exact ⟨a1, by simpa using a2⟩
                      · rw [if_neg hb6] at h
                        by_cases hb7 : (b == '"' || b == '\'') = true
                        · rw [if_pos hb7] at h
                          cases hpc : parseConstantGo e st with
                          | error m =>
                              simp only [hpc] at h
                              exact absurd h (fun hh => Except.noConfusion hh)
                          | ok trip =>
                              obtain ⟨st2', ex', er'⟩ := trip
                              simp only [hpc] at h
                              have ho := Except.ok.inj h
                              obtain ⟨c1, c2, c3, c4, c5, c6⟩ :=
                                parseConstantGo_spec e st b st2' ex' er' hg hpc
                              refine ⟨fun st2 ex er hfo => ?_, fun st2 ex er heo => ?_⟩
                              · rw [← ho] at hfo
                                injection hfo with e1 e2 e3
                                subst e1
                                subst e3
                                refine ⟨c2, c6, c1, Or.inr (Or.inr ?_)⟩
                                intro c hcp
                                rw [c4] at hcp
                                have hbc : b = c := Option.some.inj hcp
                                rw [Bool.or_eq_true] at hb7
                                rcases hb7 with hq | hq
                                · rw [← hbc, eq_of_beq hq]
                                  rfl
                                · rw [← hbc, eq_of_beq hq]
                                  rfl
                              · rw [← ho] at heo
                                exact absurd heo (fun hh => ScanOut.noConfusion hh)
                        · rw [if_neg hb7] at h
                          have hsb : stopChars b = false := by
                            cases hx : stopChars b
                            · rfl
                            · exfalso
                              unfold stopChars charsToMap at hx
                              simp only [String.toList, List.contains,
                                List.elem_eq_mem, List.mem_cons, List.not_mem_nil,
                                or_false, decide_eq_true_eq] at hx
                              rcases hx with hx | hx | hx | hx
                              · exact hb6 (by rw [hx]; decide)
                              · exact hb5 (by rw [hx]; decide)
                              · exact hb3 (by rw [hx]; decide)
                              · exact hb4 (by rw [hx]; decide)
                          cases hpt : parseTokenGo e st with
                          | error m =>
                              simp only [hpt] at h
                              exact absurd h (fun hh => Except.noConfusion hh)
                          | ok pr =>
                              obtain ⟨st2', id⟩ := pr
                              simp only [hpt] at h
                              have ho := Except.ok.inj h
                              obtain ⟨t1, t2, t3, t4, t5⟩ :=
                                parseTokenGo_spec e st b st2' id hg hsb hpt
                              refine ⟨fun st2 ex er hfo => ?_, fun st2 ex er heo => ?_⟩
                              · rw [← ho] at hfo
                                injection hfo with e1 e2 e3
                                subst e1
                                subst e3
                                refine ⟨t1, t5, rfl, Or.inr (Or.inr ?_)⟩
                                intro c hcp
                                exact nextChars_stop c (t3 c hcp)
                              · rw [← ho] at heo
                                exact absurd heo (fun hh => ScanOut.noConfusion hh)
      · rw [if_neg hlt] at h
        have ho := Except.ok.inj h
        refine ⟨fun st2 ex er hfo => ?_, fun st2 ex er heo => ?_⟩
        · rw [← ho] at hfo
          injection hfo with e1 e2 e3
          subst e1
          subst e3
          exact ⟨hle, rfl, rfl, Or.inl (by omega)⟩
        · rw [← ho] at heo
          exact absurd heo (fun hh => ScanOut.noConfusion hh)

theorem parseExprGo_spec (e : List Char) (st st2 : PState)
    (ex : Option Nat) (er : Option String)
    (hle : st.i ≤ e.length)
    (h : parseExprGo e st = .ok (st2, ex, er)) :
    st2.i ≤ e.length ∧
      (st.emptyAdded = false → st2.emptyAdded = true →
        st2.i = e.length ∧ 0 < e.length ∧
          (match e.getLast? with | some c => nextChars c | none => false) = true ∧
          (er = some expectingMsg ∨ ∃ k : Nat, er = some ("expression missing " ++
            toString k ++ " terminating parenthesis"))) := by
  unfold parseExprGo at h
  cases hsc : scanLoop e (e.length + 1) st with
  | error m =>
      simp only [hsc] at h
      exact absurd h (fun hh => Except.noConfusion hh)
  | ok out =>
      obtain ⟨hfell, hearly⟩ := scanLoop_spec e (e.length + 1) st out hle hsc
      cases out with
      | early st3 ex3 er3 =>
          simp only [hsc] at h
          have ho := Except.ok.inj h
          rw [Prod.mk.injEq] at ho
          obtain ⟨o1, o2⟩ := ho
          rw [Prod.mk.injEq] at o2
          obtain ⟨o2a, o2b⟩ := o2
          obtain ⟨hA, hB⟩ := hearly st3 ex3 er3 rfl
          subst o1
          refine ⟨hA, ?_⟩
          intro hs0 hs2
          rw [hB, hs0] at hs2
          exact absurd hs2 (fun hh => Bool.noConfusion hh)
      | fell st3 ex3 er3 =>
          simp only [hsc] at h
          obtain ⟨hA, hB, hC, hD⟩ := hfell st3 ex3 er3 rfl
          by_cases htr : (decide (st3.i > 0) && (match e.get? (st3.i - 1) with
            | some c => nextChars c
            | none => false)) = true
          · rw [if_pos htr] at h
            split at h
            · exact absurd h (fun hh => Except.noConfusion hh)
            · rename_i st4 id hne
              have ho := Except.ok.inj h
              rw [Prod.mk.injEq] at ho
              obtain ⟨o1, o2⟩ := ho
              rw [Prod.mk.injEq] at o2
              obtain ⟨o2a, o2b⟩ := o2
              obtain ⟨hni, hnp, hnea⟩ := newExpr_state _ _ _ _ hne
              rw [Bool.and_eq_true] at htr
              have hpos : 0 < st3.i := of_decide_eq_true htr.1
              cases hgp : e.get? (st3.i - 1) with
              | none =>
                  rw [hgp] at htr
                  exact absurd htr.2 (fun hh => Bool.noConfusion hh)
              | some c =>
                  rw [hgp] at htr
                  have hnc : nextChars c = true := htr.2
                  have hilen : st3.i = e.length := by
                    rcases hD with hD | hD | hD
                    · exact hD
                    · omega
                    · rw [hD c hgp] at hnc
                      exact absurd hnc (fun hh => Bool.noConfusion hh)
                  have hi2 : st2.i = st3.i := by
                    rw [← o1]
                    simpa using hni
                  have hea2 : st2.emptyAdded = true := by
                    rw [← o1]
                  refine ⟨by omega, ?_⟩
                  intro _ _
                  refine ⟨by omega, by omega, ?_, ?_⟩
                  · have hlast : e.getLast? = some c := by
                      rw [List.getLast?_eq_getElem?, ← List.get?_eq_getElem?,
                        ← hilen]
                      exact hgp
                    rw [hlast]
                    exact hnc
                  · subst hC
                    rw [← o2b]
                    by_cases hpe : st3.parents.isEmpty = true
                    · rw [hpe]
                      simp only [hilen]
                      simp
                    · simp only [Bool.not_eq_true] at hpe
                      rw [hpe]
                      simp only [hilen]
                      simp
                      exact Or.inr ⟨st3.parents.length, rfl⟩
          · rw [if_neg htr] at h
            have ho := Except.ok.inj h
            rw [Prod.mk.injEq] at ho
            obtain ⟨o1, o2⟩ := ho
            subst o1
            refine ⟨hA, ?_⟩
            intro hs0 hs2
            rw [hB, hs0] at hs2
            exact absurd hs2 (fun hh => Bool.noConfusion hh)

theorem parseLoopGo_flag (e : List Char) :
    ∀ (f : Nat) (st0 : PState) (err0 : Option String) (st : PState)
      (err : Option String),
      st0.emptyAdded = false → st0.i ≤ e.length →
      parseLoopGo e f st0 err0 = .ok (st, err) → st.emptyAdded = true →
      st.i = e.length ∧ 0 < e.length ∧
        (match e.getLast? with | some c => nextChars c | none => false) = true ∧
        (err = some expectingMsg ∨ ∃ k : Nat, err = some ("expression missing " ++
          toString k ++ " terminating parenthesis"))
  | 0, st0, err0, st, err, h0, hle, h, hflag => by
      simp only [parseLoopGo] at h
      exact absurd h (fun hh => Except.noConfusion hh)
  | f + 1, st0, err0, st, err, h0, hle, h, hflag => by
      simp only [parseLoopGo] at h
      by_cases hc : (decide (st0.i < e.length) && err0.isNone) = true
      · rw [if_pos hc] at h
        cases hpe : parseExprGo e st0 with
        | error m =>
            simp only [hpe] at h
            exact absurd h (fun hh => Except.noConfusion hh)
        | ok trip =>
            obtain ⟨st2, ex2, er2⟩ := trip
            simp only [hpe] at h
            obtain ⟨hA, hWin⟩ := parseExprGo_spec e st0 st2 ex2 er2 hle hpe
            cases hfl2 : st2.emptyAdded with
            | false => exact parseLoopGo_flag e f st2 er2 st err hfl2 hA h hflag
            | true =>
                obtain ⟨p1, p2, p3, p4⟩ := hWin h0 hfl2
                have her2 : er2.isNone = false := by
                  rcases p4 with p4 | ⟨k, p4⟩ <;> rw [p4] <;> rfl
                cases f with
                | zero =>
                    simp only [parseLoopGo] at h
                    exact absurd h (fun hh => Except.noConfusion hh)
                | succ f2 =>
                    simp only [parseLoopGo] at h
                    rw [if_neg (by rw [her2]; simp)] at h
                    have ho := Except.ok.inj h
                    rw [Prod.mk.injEq] at ho
                    obtain ⟨o1, o2⟩ := ho
                    subst o1
                    subst o2
                    exact ⟨p1, p2, p3, p4⟩
      · rw [if_neg hc] at h
        have ho := Except.ok.inj h
        rw [Prod.mk.injEq] at ho
        obtain ⟨o1, o2⟩ := ho
        subst o1
        rw [h0] at hflag
        exact absurd hflag (fun hh => Bool.noConfusion hh)

/-- Claim C8 (amended): the parser synthesizes the empty placeholder node
(and `emptyAdded` is set) only when the whole input has been consumed and
the input's FINAL character is one of `(`, `,` or `.` (`nextChars`; `)`
is not among them, and interior structural characters never trigger it —
the check runs once per `parseExpr` against the character before the
final parser position).  The reported error is then "expression expecting
a value but found nothing", unless unterminated parentheses make the
"expression missing N terminating parenthesis" error take precedence. -/
theorem c8_amended (e : List Char) (st : PState) (err : Option String)
    (h : parseRun e = .ok (st, err)) (hflag : st.emptyAdded = true) :
    st.i = e.length ∧ 0 < e.length ∧
      (match e.getLast? with | some c => nextChars c | none => false) = true ∧
      (err = some expectingMsg ∨ ∃ k : Nat, err = some ("expression missing " ++
        toString k ++ " terminating parenthesis")) :=
  parseLoopGo_flag e (e.length + 1) initPState none st err rfl
    (by simp [initPState]) h hflag

/-- The parser state after running on `time.` (all five characters
consumed, the placeholder node 1 added, the missing-value error set). -/
def c8St : PState :=
  { i := 5, lineReset := 0, line := 0, parents := [], prev := some 1,
    first := some 0,
    nodes := #[
      { token := "time", constant := false,
        startP := { index := 0, line := 0, column := 0 },
        endP := { index := 4, line := 0, column := 4 },
        prev := none, next := some 1, parent := none, args := [] },
      { token := "", constant := false,
        startP := { index := 5, line := 0, column := 5 },
        endP := { index := 5, line := 0, column := 5 },
        prev := some 0, next := none, parent := none, args := [] }],
    emptyAdded := true }

/-- Witness for the C8 amended theorem on the input `time.`: the parser
adds the placeholder, consumes the five characters, the final character
`.` is a `nextChars` character, and the missing-value error is reported. -/
theorem c8_amended_witness :
    c8St.i = "time.".toList.length ∧ 0 < "time.".toList.length ∧
      (match "time.".toList.getLast? with
       | some c => nextChars c
       | none => false) = true ∧
      (some expectingMsg = some expectingMsg ∨
        ∃ k : Nat, some expectingMsg = some ("expression missing " ++
          toString k ++ " terminating parenthesis")) :=
  c8_amended "time.".toList c8St (some expectingMsg) (by rfl) (by rfl)
